import Mathlib

/-!
# A shallow embedding of `tokenizer.c`

The program reads a source file line by line, squeezes every line together
(`squeeze_together`), and scans it with `get_token`, which works on the global
pointer `line` and on the token buffer of `main`.  Recognised tokens are
written by `file_write_token`, unrecognised characters by
`file_write_token_error`.

Modelling conventions.

* A C string is the list of the characters that precede its terminating NUL.
  Reading `s[i]` at or after the terminator gives NUL (`charAt`): the line
  buffer is zero-filled by the `strncpy` at the end of `squeeze_together`.
* The token buffer of `main` and the buffer `temp` of `get_token` have
  `TSIZE` cells; `TSIZE` is a constant of `tokenizer.h`, a header that is not
  among the sources, and is a parameter of the embedding.  A store into `temp`
  at or past cell `TSIZE` falls outside the buffer and is lost, and
  `strncpy(token_p, temp, TSIZE)` copies at most `TSIZE` characters, which
  the model takes as the new token: of a run of more than `TSIZE` digits the
  token holds the first `TSIZE`, and the next call scans the others.  What a
  store outside `temp` overwrites, and the terminator that a token of `TSIZE`
  characters lacks, are matters of memory layout and are not modelled; the
  statements about a whole run of digits are made for runs shorter than
  `TSIZE`.
* The constant `LINE` of the same header bounds what `fgets` reads: a line
  that `fgets` returns has fewer than `LINE` characters, so the `LINE` cells
  of the line buffers always suffice.  The embedding takes the lines as
  `fgets` returns them.
* The counters `start` and `count` are C `int`s; they are modelled as `Int`
  and no overflow is modelled.
* The global pointer `line` is modelled by the text it points to.  A null
  pointer handed to `strlen` or incremented is undefined behaviour, modelled
  by `none`.
* What is written to the output file is modelled as a list of records;
  `Record.render` gives the text of the `fprintf` call that writes one.
-/

namespace Tokenizer

/-! ## Constants of `tokenizer.h` -/

/-- Modelled from the spec: `tokenizer.h` is missing; the addition symbol of
the operator class of the scanner. -/
def ADD_OP : Char := '+'
/-- Modelled from the spec: `tokenizer.h` is missing; the subtraction symbol. -/
def SUB_OP : Char := '-'
/-- Modelled from the spec: `tokenizer.h` is missing; the multiplication symbol. -/
def MULT_OP : Char := '*'
/-- Modelled from the spec: `tokenizer.h` is missing; the division symbol. -/
def DIV_OP : Char := '/'
/-- Modelled from the spec: `tokenizer.h` is missing; the left parenthesis. -/
def LEFT_PAREN : Char := '('
/-- Modelled from the spec: `tokenizer.h` is missing; the right parenthesis. -/
def RIGHT_PAREN : Char := ')'
/-- Modelled from the spec: `tokenizer.h` is missing; the exponent symbol. -/
def EXPON_OP : Char := '^'
/-- Modelled from the spec: `tokenizer.h` is missing; the statement terminator. -/
def SEMI_COLON : Char := ';'
/-- Modelled from the spec: `tokenizer.h` is missing; the less-than symbol. -/
def LESS_THAN_OP : Char := '<'
/-- Modelled from the spec: `tokenizer.h` is missing; the greater-than symbol. -/
def GREATER_THAN_OP : Char := '>'
/-- Modelled from the spec: `tokenizer.h` is missing; the assignment symbol,
which is also the second character of a compound operator. -/
def ASSIGN_OP : Char := '='
/-- Modelled from the spec: `tokenizer.h` is missing; the negation symbol. -/
def NOT_OP : Char := '!'

/-! ## C strings and buffers -/

/-- The NUL character that terminates a C string. -/
def NUL : Char := Char.ofNat 0

/-- The read `s[i]` of a C string kept in a zero-filled buffer. -/
def charAt (s : List Char) (i : Nat) : Char := s.getD i NUL

/-- The store `b[i] = c` into a buffer of `size` cells obtained from `calloc`:
the cells that the list does not list hold NUL, and a store at or past cell
`size` falls outside the buffer and is lost. -/
def bufSet (size : Nat) (b : List Char) (i : Nat) (c : Char) : List Char :=
  if i < size then
    (if i < b.length then b.set i c
     else b ++ List.replicate (i - b.length) NUL ++ [c])
  else b

/-- The library function `strncpy(dest, src, n)` for a string `src`: the
string that `dest` holds afterwards, at most `n` characters of `src`. -/
def strncpy (src : List Char) (n : Nat) : List Char := src.take n

/-- The test `strncmp(a, b, n) == 0` for two strings: they agree on their
first `n` characters. -/
def strncmp_eq (a b : List Char) (n : Nat) : Bool := decide (a.take n = b.take n)

/-- The C string held by a buffer: its cells up to the first NUL. -/
def cstr (b : List Char) : List Char := b.takeWhile (fun c => c != NUL)

/-- The test `isdigit` of `ctype.h` in the C locale. -/
def isdigit (c : Char) : Bool := decide (48 ≤ c.toNat) && decide (c.toNat ≤ 57)

/-- The library function `strstr`: the text from the first occurrence of
`needle` in `haystack` on, or `none` (a null pointer) when there is none. -/
def strstr : List Char → List Char → Option (List Char)
  | [], needle => if needle = [] then some [] else none
  | c :: cs, needle =>
    if needle.isPrefixOf (c :: cs) then some (c :: cs) else strstr cs needle

/-! ## Output records -/

/-- One `fprintf` item of the output file. -/
inductive Record where
  | separator : Record
  | header (n : Int) : Record
  | lexeme (k : Int) (text : List Char) : Record
  | error (c : Char) : Record
  deriving DecidableEq, Repr

/-- The text that the program writes for a record. -/
def Record.render : Record → String
  | Record.separator => "--------------------------------------------------\n"
  | Record.header n => "Statement #" ++ toString n ++ "\n"
  | Record.lexeme k text => "Lexeme " ++ toString k ++ " is " ++ String.mk text ++ "\n"
  | Record.error c => "===> \x27" ++ String.mk [c] ++ "\x27\nLexical error: not a lexeme\n"

/-! ## The functions of `tokenizer.c` -/

/-- The function `squeeze_together`: the characters of the line that pass the
test of the loop, in their order. -/
def squeeze_together (char_p : List Char) : List Char :=
  char_p.filter (fun c =>
    c != '\t' && c != ' ' && c != '\n'
      && c != NUL && c != Char.ofNat 11 && c != Char.ofNat 8
      && c != Char.ofNat 12 && c != '\r' && c != Char.ofNat 7)

/-- The function `string_after_token`: the new value of the global `line`. -/
def string_after_token (line token_p : List Char) : Option (List Char) :=
  if token_p ≠ [] then
    (strstr line token_p).map (fun l => l.drop token_p.length)
  else some line

/-- The `switch` of `get_token`, with `i = 0`, on the `TSIZE` cells of `temp`. -/
def switch_operator (TSIZE : Nat) (c : Char) (temp : List Char) : List Char :=
  if c = ADD_OP then bufSet TSIZE temp 0 ADD_OP
  else if c = SUB_OP then bufSet TSIZE temp 0 SUB_OP
  else if c = MULT_OP then bufSet TSIZE temp 0 MULT_OP
  else if c = DIV_OP then bufSet TSIZE temp 0 DIV_OP
  else if c = LEFT_PAREN then bufSet TSIZE temp 0 LEFT_PAREN
  else if c = RIGHT_PAREN then bufSet TSIZE temp 0 RIGHT_PAREN
  else if c = EXPON_OP then bufSet TSIZE temp 0 EXPON_OP
  else if c = SEMI_COLON then bufSet TSIZE temp 0 SEMI_COLON
  else if c = LESS_THAN_OP then bufSet TSIZE temp 0 LESS_THAN_OP
  else if c = GREATER_THAN_OP then bufSet TSIZE temp 0 GREATER_THAN_OP
  else if c = ASSIGN_OP then bufSet TSIZE temp 0 ASSIGN_OP
  else if c = NOT_OP then bufSet TSIZE temp 0 NOT_OP
  else temp

/-- The loop `while (isdigit(line[i])) { temp[i] = line[i]; i++; }` of
`get_token`.  The first argument is the text at `line + i`; at the terminator
the test fails, since NUL is not a digit.  The loop does not compare `i` with
`TSIZE`: its stores at or past cell `TSIZE` are outside `temp` (`bufSet`). -/
def scan_digits (TSIZE : Nat) : List Char → Nat → List Char → List Char
  | [], _, temp => temp
  | c :: cs, i, temp =>
    if isdigit c then scan_digits TSIZE cs (i + 1) (bufSet TSIZE temp i c) else temp

/-- The function `get_token` with `temp = calloc(TSIZE, sizeof(char))` and a
token buffer of `TSIZE` cells: the new value of the global `line` and the new
contents of the token buffer, as `strncpy(token_p, ..., TSIZE)` leaves it. -/
def get_token (TSIZE : Nat) (line token_p : List Char) :
    Option (List Char × List Char) :=
  match string_after_token line token_p with
  | none => none
  | some line =>
    let temp : List Char := []
    let temp := switch_operator TSIZE (charAt line 0) temp
    let temp :=
      if !isdigit (charAt line 0) && charAt line 1 == ASSIGN_OP then
        bufSet TSIZE temp 1 ASSIGN_OP
      else temp
    let temp := scan_digits TSIZE line 0 temp
    let token := strncpy (cstr temp) TSIZE
    let token :=
      if token = [] then
        if charAt line 0 ≠ NUL then strncpy "ERROR".toList TSIZE
        else strncpy "NULL".toList TSIZE
      else token
    some (line, token)

/-- The function `file_write_token_error`, which prints `line[0]`. -/
def file_write_token_error (line : List Char) : List Record :=
  [Record.error (charAt line 0)]

/-- The function `file_write_token`: the new values of `*start` and `*count`
and the records written. -/
def file_write_token (start count : Int) (token_p : List Char) :
    Int × Int × List Record :=
  let out :=
    (if count = 0 then
      (if start > 1 then [Record.separator] else []) ++ [Record.header start]
    else []) ++ [Record.lexeme count token_p]
  if token_p = ";".toList then (start + 1, -1, out) else (start, count, out)

/-- The last branch of the loop of `main`: `file_write_token` followed by
`count++`. -/
def write_and_count (start count : Int) (token : List Char) :
    Int × Int × List Record :=
  let r := file_write_token start count token
  (r.1, r.2.1 + 1, r.2.2)

/-- The variables of `main` that the scan of a line works on, the global
`line`, and the records written so far. -/
structure Scan where
  line : List Char
  token : List Char
  start : Int
  count : Int
  out : List Record
  deriving DecidableEq, Repr

/-- The condition `strlen(strstr(line, token)) > 1` of the inner loop. -/
def loop_cond (st : Scan) : Option Bool :=
  (strstr st.line st.token).map (fun l => decide (l.length > 1))

/-- One run of the body of the inner loop of `main`, with its three branches
chosen by `strncmp(token, "NULL", TSIZE)` and `strncmp(token, "ERROR", TSIZE)`. -/
def loop_body (TSIZE : Nat) (st : Scan) : Option Scan :=
  match get_token TSIZE st.line st.token with
  | none => none
  | some (line, token) =>
    if strncmp_eq token "NULL".toList TSIZE then
      some { st with line := line, token := strncpy [] TSIZE }
    else if strncmp_eq token "ERROR".toList TSIZE then
      some { st with
        line := line.tail, token := strncpy [] TSIZE,
        out := st.out ++ file_write_token_error line }
    else
      let r := write_and_count st.start st.count token
      some { line := line, token := token, start := r.1, count := r.2.1,
             out := st.out ++ r.2.2 }

/-- The inner loop of `main`, run for at most `fuel` tests of its condition;
`none` when the fuel runs out or the behaviour is undefined. -/
def scan_loop (TSIZE : Nat) : Nat → Scan → Option Scan
  | 0, _ => none
  | fuel + 1, st =>
    match loop_cond st with
    | none => none
    | some false => some st
    | some true =>
      match loop_body TSIZE st with
      | none => none
      | some st1 => scan_loop TSIZE fuel st1

/-- The state in which the inner loop is entered for a squeezed line, after
`strncpy(token, "", TSIZE)`. -/
def scan_init (line : List Char) (start count : Int) : Scan :=
  { line := line, token := [], start := start, count := count, out := [] }

/-- The body of the outer loop of `main` for one line that `fgets` has read:
the new `start` and `count` and the records written for the line.  Every
iteration but the last consumes a character, so `length + 2` tests of the
condition are enough. -/
def main_line (TSIZE : Nat) (input_line : List Char) (start count : Int) :
    Option (Int × Int × List Record) :=
  let line := squeeze_together input_line
  if line = [] then some (start, count, [])
  else
    (scan_loop TSIZE (line.length + 2) (scan_init line start count)).map
      (fun st => (st.start, st.count, st.out))

/-- The outer loop of `main` over the lines that `fgets` reads one after the
other: the final `start` and `count` and all the records written. -/
def main_lines (TSIZE : Nat) :
    List (List Char) → Int → Int → Option (Int × Int × List Record)
  | [], start, count => some (start, count, [])
  | input_line :: rest, start, count =>
    match main_line TSIZE input_line start count with
    | none => none
    | some r =>
      match main_lines TSIZE rest r.1 r.2.1 with
      | none => none
      | some r2 => some (r2.1, r2.2.1, r.2.2 ++ r2.2.2)

/-- The records that `main` writes for a document, from `start = 1` and
`count = 0`. -/
def main_output (TSIZE : Nat) (document : List (List Char)) : Option (List Record) :=
  (main_lines TSIZE document 1 0).map (fun r => r.2.2)

/-- The text that `get_token` copies from `temp` to the token buffer, before
"ERROR" or "NULL" takes the place of an empty text. -/
def scanned_text (TSIZE : Nat) (line : List Char) : List Char :=
  let temp : List Char := []
  let temp := switch_operator TSIZE (charAt line 0) temp
  let temp :=
    if !isdigit (charAt line 0) && charAt line 1 == ASSIGN_OP then
      bufSet TSIZE temp 1 ASSIGN_OP
    else temp
  let temp := scan_digits TSIZE line 0 temp
  strncpy (cstr temp) TSIZE

/-! ## The formatter as a consumer of scan results -/

/-- The three outcomes of a scan step that the loop body of `main` tells
apart: a token text, the value "NULL", and the value "ERROR" together with
the character `line[0]` that is reported. -/
inductive ScanResult where
  | token (text : List Char) : ScanResult
  | endOfLine : ScanResult
  | invalid (c : Char) : ScanResult
  deriving DecidableEq, Repr

/-- The counters `start` and `count` of `main` and the records written. -/
structure Fmt where
  start : Int
  count : Int
  out : List Record
  deriving DecidableEq, Repr

/-- The counters at the start of `main`, with nothing written. -/
def Fmt.init : Fmt := { start := 1, count := 0, out := [] }

/-- What the three branches of the loop body of `main` do to the counters and
to the output. -/
def Fmt.step (f : Fmt) : ScanResult → Fmt
  | ScanResult.endOfLine => f
  | ScanResult.invalid c => { f with out := f.out ++ file_write_token_error [c] }
  | ScanResult.token text =>
    let r := write_and_count f.start f.count text
    { start := r.1, count := r.2.1, out := f.out ++ r.2.2 }

/-- The formatter fed a stream of scan results. -/
def Fmt.feed (f : Fmt) (rs : List ScanResult) : Fmt := rs.foldl Fmt.step f

/-! ## Vocabulary of the statements -/

/-- The twelve operator and punctuation symbols. -/
def operator_symbols : List Char :=
  ['+', '-', '*', '/', '(', ')', '^', ';', '<', '>', '=', '!']

/-- The outcome of `get_token` on the text that remains, case by case, for a
token buffer of `TSIZE` cells that holds the sentinels and the operators. -/
def classify (TSIZE : Nat) : List Char → List Char
  | [] => "NULL".toList
  | c :: tl =>
    if c ∈ operator_symbols then
      (if tl.head? = some '=' then [c, '='] else [c])
    else if isdigit c then ((c :: tl).takeWhile isdigit).take TSIZE
    else if c = NUL then "NULL".toList
    else "ERROR".toList

/-- The position in the line `l` up to which a state of the scan has
consumed it: the offset of the global `line`, plus the length of the token
that the next call of `get_token` skips. -/
def cursor (l : List Char) (st : Scan) : Nat :=
  l.length - st.line.length + st.token.length

/-- The number of characters of the line that the records account for: the
length of every token text, and one for every reported character. -/
def consumed : List Record → Nat
  | [] => 0
  | Record.lexeme _ text :: rs => text.length + consumed rs
  | Record.error _ :: rs => 1 + consumed rs
  | _ :: rs => consumed rs

/-- The token texts and reported characters of the records, in order. -/
def emitted : List Record → List Char
  | [] => []
  | Record.lexeme _ text :: rs => text ++ emitted rs
  | Record.error c :: rs => c :: emitted rs
  | _ :: rs => emitted rs

/-- The number of statement headers among the records. -/
def headers : List Record → Nat
  | [] => 0
  | Record.header _ :: rs => 1 + headers rs
  | _ :: rs => headers rs

/-- The indices of the lexeme lines up to the next statement header. -/
def indices_to_header : List Record → List Int
  | [] => []
  | Record.header _ :: _ => []
  | Record.lexeme k _ :: rs => k :: indices_to_header rs
  | _ :: rs => indices_to_header rs

/-- The list `0, 1, 2, …` of the given length, as integers. -/
def counting (n : Nat) : List Int := (List.range n).map Int.ofNat

/-- Every statement header among the records is followed, up to the next
header, by lexeme lines with the indices `0, 1, 2, …`. -/
def well_numbered : List Record → Prop
  | [] => True
  | Record.header _ :: rs =>
    indices_to_header rs = counting (indices_to_header rs).length ∧ well_numbered rs
  | _ :: rs => well_numbered rs

/-- The invariant of the inner loop of `main` on the line `l`: the global
`line` points into `l`, and the token is a prefix of the text at `line`. -/
def scan_inv (l : List Char) (st : Scan) : Prop :=
  ∃ pre post, l = pre ++ st.line ∧ st.line = st.token ++ post

/-- The list `k, k + 1, …` of the given length. -/
def counting_from (k : Int) (m : Nat) : List Int := (List.range m).map (fun i => k + Int.ofNat i)

/-- The eight characters, other than NUL, that the test of `squeeze_together`
rejects: tab, space, newline, vertical tab, backspace, form feed, carriage
return and bell. -/
def removed_characters : List Char :=
  ['\t', ' ', '\n', Char.ofNat 11, Char.ofNat 8, Char.ofNat 12, '\r', Char.ofNat 7]

/-- The text that a scan finds at the start of the text that remains: one of
the twelve symbols with the `=` that may follow it, a run of digits, or
nothing. -/
def token_text : List Char → List Char
  | [] => []
  | c :: tl =>
    if c ∈ operator_symbols then
      (if tl.head? = some '=' then [c, '='] else [c])
    else if isdigit c then (c :: tl).takeWhile isdigit
    else []

/-- The numbering and the separation of the statement headers among the
records: `s` is the number that the next header carries, `sep` tells whether
the record just before is a separator line.  A separator line is followed at
once by a header, a header carries the next number and follows a separator
line exactly when its number exceeds 1. -/
def layout : Bool → Int → List Record → Prop
  | sep, _, [] => sep = false
  | sep, s, Record.separator :: rs => sep = false ∧ layout true s rs
  | sep, s, Record.header n :: rs =>
    n = s ∧ (sep = true ↔ s > 1) ∧ layout false (s + 1) rs
  | sep, s, Record.lexeme _ _ :: rs => sep = false ∧ layout false s rs
  | sep, s, Record.error _ :: rs => sep = false ∧ layout false s rs

/-- Whether every run of digits in a line has at most `n` digits. -/
def digit_runs_fit (n : Nat) (l : List Char) : Bool :=
  l.tails.all (fun r => decide ((r.takeWhile isdigit).length ≤ n))

/-! ## The outcome of `get_token` -/

theorem operator_not_digit {c : Char} (h : c ∈ operator_symbols) : isdigit c = false := by
  simp only [operator_symbols, List.mem_cons, List.mem_singleton, List.not_mem_nil, or_false] at h
  rcases h with rfl | rfl | rfl | rfl | rfl | rfl | rfl | rfl | rfl | rfl | rfl | rfl <;> decide

theorem operator_ne_NUL {c : Char} (h : c ∈ operator_symbols) : c ≠ NUL := by
  simp only [operator_symbols, List.mem_cons, List.mem_singleton, List.not_mem_nil, or_false] at h
  rcases h with rfl | rfl | rfl | rfl | rfl | rfl | rfl | rfl | rfl | rfl | rfl | rfl <;> decide

theorem digit_ne_NUL {c : Char} (h : isdigit c = true) : c ≠ NUL := by
  rintro rfl
  exact absurd h (by decide)

theorem bufSet_nil_zero (T : Nat) (c : Char) : bufSet T [] 0 c = [c].take T := by
  cases T with
  | zero => rfl
  | succ n => simp [bufSet]

theorem switch_operator_nil (T : Nat) (c : Char) :
    switch_operator T c [] = (if c ∈ operator_symbols then [c] else []).take T := by
  by_cases h : c ∈ operator_symbols
  · rw [if_pos h]
    simp only [operator_symbols, List.mem_cons, List.mem_singleton, List.not_mem_nil,
      or_false] at h
    rcases h with rfl | rfl | rfl | rfl | rfl | rfl | rfl | rfl | rfl | rfl | rfl | rfl <;>
      exact bufSet_nil_zero T _
  · rw [if_neg h]
    simp only [operator_symbols, List.mem_cons, List.mem_singleton, List.not_mem_nil,
      or_false, not_or] at h
    obtain ⟨h1, h2, h3, h4, h5, h6, h7, h8, h9, h10, h11, h12⟩ := h
    unfold switch_operator
    simp only [ADD_OP, SUB_OP, MULT_OP, DIV_OP, LEFT_PAREN, RIGHT_PAREN, EXPON_OP, SEMI_COLON,
      LESS_THAN_OP, GREATER_THAN_OP, ASSIGN_OP, NOT_OP]
    rw [if_neg h1, if_neg h2, if_neg h3, if_neg h4, if_neg h5, if_neg h6, if_neg h7, if_neg h8,
      if_neg h9, if_neg h10, if_neg h11, if_neg h12]
    exact List.take_nil.symm

/-- Once the index is at or past the end of `temp`, the digit loop changes
nothing in `temp`. -/
theorem scan_digits_lost (T : Nat) (l : List Char) :
    ∀ (i : Nat) (temp : List Char), T ≤ i → scan_digits T l i temp = temp := by
  induction l with
  | nil => intro i temp _; rfl
  | cons c cs ih =>
    intro i temp hi
    by_cases hc : isdigit c = true
    · have hb : bufSet T temp i c = temp := by
        unfold bufSet
        rw [if_neg (by omega)]
      simp only [scan_digits, hc, if_true, hb]
      exact ih (i + 1) temp (by omega)
    · simp [scan_digits, hc]

theorem scan_digits_append (T : Nat) (l : List Char) :
    ∀ temp : List Char, temp.length ≤ T →
      scan_digits T l temp.length temp = temp ++ (l.takeWhile isdigit).take (T - temp.length) := by
  induction l with
  | nil => intro temp _; simp [scan_digits]
  | cons c cs ih =>
    intro temp ht
    by_cases hc : isdigit c = true
    · by_cases hlt : temp.length < T
      · have hb : bufSet T temp temp.length c = temp ++ [c] := by
          simp [bufSet, hlt]
        have h := ih (temp ++ [c]) (by simp; omega)
        simp only [List.length_append, List.length_singleton] at h
        simp only [scan_digits, hc, if_true, hb, h, List.takeWhile_cons_of_pos hc]
        have e : T - temp.length = (T - (temp.length + 1)) + 1 := by omega
        rw [e, List.take_succ_cons]
        simp
      · have he : T - temp.length = 0 := by omega
        have hb : bufSet T temp temp.length c = temp := by
          unfold bufSet
          rw [if_neg hlt]
        simp only [scan_digits, hc, if_true, hb, he, List.take_zero, List.append_nil]
        exact scan_digits_lost T cs _ temp (by omega)
    · simp [scan_digits, hc]

theorem cstr_nil : cstr [] = [] := rfl

theorem cstr_cons_NUL (l : List Char) : cstr (NUL :: l) = [] := rfl

theorem cstr_cons {c : Char} (h : c ≠ NUL) (l : List Char) : cstr (c :: l) = c :: cstr l := by
  simp [cstr, h]

theorem cstr_of_ne_NUL (l : List Char) (h : ∀ c ∈ l, c ≠ NUL) : cstr l = l := by
  induction l with
  | nil => rfl
  | cons c cs ih =>
    rw [cstr_cons (h c (List.mem_cons_self c cs)),
      ih (fun x hx => h x (List.mem_cons_of_mem c hx))]

theorem cstr_digits (l : List Char) (n : Nat) :
    cstr ((l.takeWhile isdigit).take n) = (l.takeWhile isdigit).take n := by
  apply cstr_of_ne_NUL
  intro c hc
  exact digit_ne_NUL (List.mem_takeWhile_imp (List.mem_of_mem_take hc))

theorem scan_digits_stop (T : Nat) {c : Char} (h : isdigit c = false) (tl : List Char)
    (i : Nat) (t : List Char) : scan_digits T (c :: tl) i t = t := by
  simp [scan_digits, h]

theorem charAt_one (c : Char) (tl : List Char) : charAt (c :: tl) 1 = tl.headD NUL := by
  cases tl <;> rfl

/-! ## The text before the sentinels -/

theorem get_token_scanned (T : Nat) (line token : List Char) :
    get_token T line token =
      (string_after_token line token).map (fun rest =>
        (rest,
          if scanned_text T rest = [] then
            (if charAt rest 0 ≠ NUL then strncpy "ERROR".toList T
             else strncpy "NULL".toList T)
          else scanned_text T rest)) := by
  unfold get_token
  cases string_after_token line token <;> rfl

/-- The scanned text is the text that the scan finds, cut to the `TSIZE`
characters that the token buffer takes. -/
theorem scanned_text_eq (T : Nat) (rest : List Char) :
    scanned_text T rest = (token_text rest).take T := by
  unfold scanned_text strncpy
  simp only [switch_operator_nil]
  cases rest with
  | nil =>
    have h0 : charAt [] 0 = NUL := rfl
    have h1 : charAt [] 1 = NUL := rfl
    have hq : (NUL == ASSIGN_OP) = false := by decide
    have hn : NUL ∉ operator_symbols := by decide
    simp only [h0, h1, hq, Bool.and_false, if_neg hn, List.take_nil, scan_digits, cstr_nil,
      token_text, Bool.false_eq_true, if_false]
  | cons c tl =>
    have hc0 : charAt (c :: tl) 0 = c := rfl
    have hq : ASSIGN_OP ≠ NUL := by decide
    simp only [hc0, charAt_one, token_text]
    by_cases hop : c ∈ operator_symbols
    · have hd := operator_not_digit hop
      have hn := operator_ne_NUL hop
      simp only [if_pos hop, hd, Bool.not_false, Bool.true_and, beq_iff_eq,
        scan_digits_stop T hd]
      cases T with
      | zero => simp [bufSet, cstr_nil]
      | succ T =>
        cases T with
        | zero =>
          have hb : ∀ x, bufSet 1 [c] 1 x = [c] := fun x => rfl
          have e1 : List.take (0 + 1) [c] = [c] := rfl
          simp only [e1, hb, ite_self, cstr_cons hn, cstr_nil]
          split_ifs <;> rfl
        | succ T =>
          have e1 : List.take (T + 1 + 1) [c] = [c] := rfl
          have hb : bufSet (T + 1 + 1) [c] 1 ASSIGN_OP = [c, ASSIGN_OP] := by
            simp [bufSet]
          simp only [e1, hb]
          by_cases he : tl.head? = some '='
          · have he2 : tl.headD NUL = ASSIGN_OP := by
              cases tl with
              | nil => simp at he
              | cons d tl2 => simpa [ASSIGN_OP] using he
            rw [if_pos he2, if_pos he, cstr_cons hn, cstr_cons hq, cstr_nil]
            rfl
          · have he2 : ¬ tl.headD NUL = ASSIGN_OP := by
              cases tl with
              | nil => decide
              | cons d tl2 => simpa [ASSIGN_OP] using he
            rw [if_neg he2, if_neg he, cstr_cons hn, cstr_nil]
    · by_cases hd : isdigit c = true
      · have h0 := scan_digits_append T (c :: tl) [] (Nat.zero_le T)
        simp only [List.length_nil, List.nil_append, Nat.sub_zero] at h0
        simp only [if_neg hop, hd, Bool.not_true, Bool.false_and, Bool.false_eq_true, if_false,
          List.take_nil, h0, cstr_digits, if_true]
        rw [List.take_take, Nat.min_self]
      · simp only [Bool.not_eq_true] at hd
        have ht : ∀ b : Bool, cstr (if b = true then bufSet T [] 1 ASSIGN_OP else []) = [] := by
          intro b
          split_ifs
          · unfold bufSet
            split_ifs <;> rfl
          · rfl
        simp only [if_neg hop, List.take_nil, scan_digits_stop T hd, ht, hd,
          Bool.false_eq_true, if_false]

/-- Every character of the text that a scan finds is one of the twelve symbols
or a digit. -/
theorem token_text_chars (rest : List Char) :
    ∀ x ∈ token_text rest, x ∈ operator_symbols ∨ isdigit x = true := by
  cases rest with
  | nil => intro x hx; simp [token_text] at hx
  | cons c tl =>
    intro x hx
    simp only [token_text] at hx
    by_cases hop : c ∈ operator_symbols
    · rw [if_pos hop] at hx
      have hq : '=' ∈ operator_symbols := by decide
      split_ifs at hx
      · simp only [List.mem_cons, List.mem_singleton, List.not_mem_nil, or_false] at hx
        rcases hx with rfl | rfl
        · exact Or.inl hop
        · exact Or.inl hq
      · simp only [List.mem_singleton] at hx
        exact Or.inl (hx ▸ hop)
    · rw [if_neg hop] at hx
      split_ifs at hx
      · exact Or.inr (List.mem_takeWhile_imp hx)
      · simp at hx

theorem head_ne_of_sentinel {c : Char} (h : c ∈ operator_symbols ∨ isdigit c = true) :
    c ≠ 'N' ∧ c ≠ 'E' := by
  rcases h with h | h
  · simp only [operator_symbols, List.mem_cons, List.mem_singleton, List.not_mem_nil,
      or_false] at h
    rcases h with rfl | rfl | rfl | rfl | rfl | rfl | rfl | rfl | rfl | rfl | rfl | rfl <;> decide
  · constructor <;> rintro rfl <;> exact absurd h (by decide)

theorem scanned_text_shape_aux (T : Nat) (rest : List Char) :
    scanned_text T rest = [] ∨
    (scanned_text T rest ≠ [] ∧ ∀ c ∈ scanned_text T rest, isdigit c = true) ∨
    (∃ c, c ∈ operator_symbols ∧
      (scanned_text T rest = [c] ∨ scanned_text T rest = [c, '='])) := by
  rw [scanned_text_eq]
  cases rest with
  | nil => exact Or.inl (by simp [token_text])
  | cons c tl =>
    simp only [token_text]
    by_cases hop : c ∈ operator_symbols
    · rw [if_pos hop]
      cases T with
      | zero => exact Or.inl (List.take_zero _)
      | succ T =>
        right; right
        refine ⟨c, hop, ?_⟩
        cases T with
        | zero => left; split_ifs <;> rfl
        | succ T =>
          split_ifs
          · exact Or.inr (by simp)
          · exact Or.inl (by simp)
    · rw [if_neg hop]
      by_cases hd : isdigit c = true
      · rw [if_pos hd]
        by_cases he : List.take T (List.takeWhile isdigit (c :: tl)) = []
        · exact Or.inl he
        · right; left
          exact ⟨he, fun x hx => List.mem_takeWhile_imp (List.mem_of_mem_take hx)⟩
      · left
        rw [if_neg hd]
        exact List.take_nil

theorem scanned_text_ne_sentinel (T : Nat) (rest : List Char) :
    scanned_text T rest ≠ "NULL".toList ∧ scanned_text T rest ≠ "ERROR".toList := by
  have h : ∀ x ∈ scanned_text T rest, x ∈ operator_symbols ∨ isdigit x = true := by
    rw [scanned_text_eq]
    exact fun x hx => token_text_chars rest x (List.mem_of_mem_take hx)
  constructor
  · intro he
    have := head_ne_of_sentinel (h 'N' (by rw [he]; decide))
    exact this.1 rfl
  · intro he
    have := head_ne_of_sentinel (h 'E' (by rw [he]; decide))
    exact this.2 rfl

/-- With a token buffer that holds the sentinels, `get_token` returns the text
that `classify` tells. -/
theorem get_token_classify {T : Nat} (hT : 6 ≤ T) {line token rest : List Char}
    (h : string_after_token line token = some rest) :
    get_token T line token = some (rest, classify T rest) := by
  rw [get_token_scanned, h]
  simp only [Option.map_some', Option.some.injEq, Prod.mk.injEq, true_and, strncpy,
    scanned_text_eq]
  have e5 : List.take T "ERROR".toList = "ERROR".toList :=
    List.take_of_length_le (by simp; omega)
  have e4 : List.take T "NULL".toList = "NULL".toList :=
    List.take_of_length_le (by simp; omega)
  rw [e4, e5]
  cases rest with
  | nil =>
    have h0 : List.take T (token_text []) = [] := List.take_nil
    rw [if_pos h0, if_neg (by decide)]
    rfl
  | cons c tl =>
    have hc0 : charAt (c :: tl) 0 = c := rfl
    simp only [hc0, token_text, classify]
    by_cases hop : c ∈ operator_symbols
    · rw [if_pos hop, if_pos hop]
      by_cases he : tl.head? = some '='
      · rw [if_pos he, List.take_of_length_le (by simp; omega)]
        rw [if_neg (List.cons_ne_nil _ _)]
      · rw [if_neg he, List.take_of_length_le (by simp; omega)]
        rw [if_neg (List.cons_ne_nil _ _)]
    · rw [if_neg hop, if_neg hop]
      by_cases hd : isdigit c = true
      · rw [if_pos hd, if_pos hd]
        have hne : List.take T (List.takeWhile isdigit (c :: tl)) ≠ [] := by
          rw [List.takeWhile_cons_of_pos hd]
          obtain ⟨n, rfl⟩ : ∃ n, T = n + 1 := ⟨T - 1, by omega⟩
          simp
        rw [if_neg hne]
      · rw [if_neg hd, if_neg hd, List.take_nil]
        simp only [if_true]
        by_cases hn : c = NUL
        · rw [if_pos hn, if_neg (not_not.mpr hn)]
        · rw [if_neg hn, if_pos hn]

theorem isPrefixOf_append (t post : List Char) : List.isPrefixOf t (t ++ post) = true := by
  induction t with
  | nil => simp [List.isPrefixOf]
  | cons a t ih => simp [List.isPrefixOf, ih]

theorem strstr_of_append (t post : List Char) : strstr (t ++ post) t = some (t ++ post) := by
  cases h : t ++ post with
  | nil =>
    have : t = [] := (List.append_eq_nil.mp h).1
    subst this
    rfl
  | cons c cs =>
    have hp := isPrefixOf_append t post
    rw [h] at hp
    simp [strstr, hp]

theorem string_after_token_append (t post : List Char) :
    string_after_token (t ++ post) t = some post := by
  unfold string_after_token
  by_cases ht : t = []
  · subst ht; simp
  · rw [if_pos ht, strstr_of_append]
    simp

theorem string_after_token_nil (l : List Char) : string_after_token l [] = some l := by
  simp [string_after_token]

theorem NULL_ne_ERROR : "NULL".toList ≠ "ERROR".toList := by decide

theorem classify_operator (T : Nat) {c : Char} (h : c ∈ operator_symbols) (tl : List Char) :
    classify T (c :: tl) = if tl.head? = some '=' then [c, '='] else [c] := by
  simp [classify, h]

theorem classify_digit (T : Nat) {c : Char} (h : isdigit c = true) (tl : List Char) :
    classify T (c :: tl) = ((c :: tl).takeWhile isdigit).take T := by
  have hop : c ∉ operator_symbols := fun hc => by
    rw [operator_not_digit hc] at h; exact Bool.false_ne_true h
  simp only [classify, if_neg hop, h, if_true]

theorem classify_invalid (T : Nat) {c : Char} (hop : c ∉ operator_symbols)
    (hd : isdigit c = false) (hn : c ≠ NUL) (tl : List Char) :
    classify T (c :: tl) = "ERROR".toList := by
  simp [classify, hop, hd, hn]

theorem classify_length {T : Nat} (hT : 6 ≤ T) (rest : List Char) :
    (classify T rest).length ≤ T := by
  cases rest with
  | nil => simp [classify]; omega
  | cons c tl =>
    simp only [classify]
    split_ifs <;> simp <;> omega

/-- The three shapes of the outcome of a scan of the text `rest`. -/
theorem classify_cases {T : Nat} (hT : 6 ≤ T) (rest : List Char) (hz : NUL ∉ rest) :
    (rest = [] ∧ classify T rest = "NULL".toList) ∨
    (∃ c tl, rest = c :: tl ∧ c ∉ operator_symbols ∧ isdigit c = false ∧ c ≠ NUL ∧
      classify T rest = "ERROR".toList) ∨
    (∃ tl, rest = classify T rest ++ tl ∧ classify T rest ≠ [] ∧
      classify T rest ≠ "NULL".toList ∧ classify T rest ≠ "ERROR".toList) := by
  cases rest with
  | nil => exact Or.inl ⟨rfl, rfl⟩
  | cons c tl =>
    have hn : c ≠ NUL := fun h => hz (by simp [h])
    right
    by_cases hop : c ∈ operator_symbols
    · right
      have hs := head_ne_of_sentinel (Or.inl hop)
      rw [classify_operator T hop]
      by_cases he : tl.head? = some '='
      · rw [if_pos he]
        cases tl with
        | nil => simp at he
        | cons d tl2 =>
          simp only [List.head?_cons, Option.some.injEq] at he
          subst he
          refine ⟨tl2, rfl, List.cons_ne_nil _ _, ?_, ?_⟩
          · intro h; injection h with h1 _; exact hs.1 h1
          · intro h; injection h with h1 _; exact hs.2 h1
      · rw [if_neg he]
        refine ⟨tl, rfl, List.cons_ne_nil _ _, ?_, ?_⟩
        · intro h; injection h with h1 _; exact hs.1 h1
        · intro h; injection h with h1 _; exact hs.2 h1
    · by_cases hd : isdigit c = true
      · right
        have hs := head_ne_of_sentinel (Or.inr hd)
        rw [classify_digit T hd]
        obtain ⟨n, rfl⟩ : ∃ n, T = n + 1 := ⟨T - 1, by omega⟩
        have htake : List.take (n + 1) (List.takeWhile isdigit (c :: tl)) =
            c :: List.take n (List.takeWhile isdigit tl) := by
          rw [List.takeWhile_cons_of_pos hd, List.take_succ_cons]
        refine ⟨List.drop (n + 1) (List.takeWhile isdigit (c :: tl)) ++
            (c :: tl).dropWhile isdigit, ?_, ?_, ?_, ?_⟩
        · rw [← List.append_assoc, List.take_append_drop, List.takeWhile_append_dropWhile]
        · rw [htake]; exact List.cons_ne_nil _ _
        · rw [htake]
          intro h; injection h with h1 _; exact hs.1 h1
        · rw [htake]
          intro h; injection h with h1 _; exact hs.2 h1
      · left
        simp only [Bool.not_eq_true] at hd
        exact ⟨c, tl, rfl, hop, hd, hn, classify_invalid T hop hd hn tl⟩

/-- On strings that the token buffer holds whole, `strncmp` with `TSIZE` tells
whether they are equal. -/
theorem strncmp_eq_iff {T : Nat} {a b : List Char} (ha : a.length ≤ T) (hb : b.length ≤ T) :
    strncmp_eq a b T = decide (a = b) := by
  unfold strncmp_eq
  rw [List.take_of_length_le ha, List.take_of_length_le hb]

theorem loop_body_of_rest {T : Nat} (hT : 6 ≤ T) {st : Scan} {rest : List Char}
    (h : string_after_token st.line st.token = some rest) :
    loop_body T st =
      if classify T rest = "NULL".toList then some { st with line := rest, token := [] }
      else if classify T rest = "ERROR".toList then
        some { st with line := rest.tail, token := [],
                       out := st.out ++ file_write_token_error rest }
      else
        some { line := rest, token := classify T rest,
               start := (write_and_count st.start st.count (classify T rest)).1,
               count := (write_and_count st.start st.count (classify T rest)).2.1,
               out := st.out ++ (write_and_count st.start st.count (classify T rest)).2.2 } := by
  unfold loop_body
  rw [get_token_classify hT h]
  have hl := classify_length hT rest
  have e1 := @strncmp_eq_iff T (classify T rest) "NULL".toList hl (by simp; omega)
  have e2 := @strncmp_eq_iff T (classify T rest) "ERROR".toList hl (by simp; omega)
  have e3 : strncpy [] T = [] := List.take_nil
  simp only [e1, e2, e3, decide_eq_true_eq]

/-! ## The inner loop of `main` -/

theorem scan_inv_init (l : List Char) (s k : Int) : scan_inv l (scan_init l s k) :=
  ⟨[], l, rfl, rfl⟩

theorem loop_cond_of_inv {l : List Char} {st : Scan} (h : scan_inv l st) :
    loop_cond st = some (decide (st.line.length > 1)) := by
  obtain ⟨pre, post, _, h2⟩ := h
  unfold loop_cond
  rw [h2, strstr_of_append]
  rfl

/-- One run of the loop body from a state that satisfies the invariant. -/
theorem loop_body_inv {T : Nat} (hT : 6 ≤ T) {l : List Char} {st : Scan} (hz : NUL ∉ l)
    (h : scan_inv l st) :
    ∃ rest tok st1, get_token T st.line st.token = some (rest, tok) ∧
      loop_body T st = some st1 ∧ scan_inv l st1 ∧
      cursor l st ≤ l.length ∧ cursor l st1 ≤ l.length ∧
      (tok ≠ "NULL".toList → cursor l st < cursor l st1) ∧
      (tok = "NULL".toList → rest = [] ∧ cursor l st1 = cursor l st) ∧
      (tok = "NULL".toList → st1.line = []) := by
  obtain ⟨pre, post, h1, h2⟩ := h
  have hrest : string_after_token st.line st.token = some post := by
    rw [h2]; exact string_after_token_append _ _
  have hl : l = pre ++ (st.token ++ post) := by rw [← h2]; exact h1
  have hzp : NUL ∉ post := fun hm => hz (by rw [hl]; simp [hm])
  have hlen : l.length = pre.length + (st.token.length + post.length) := by
    rw [hl]; simp
  have hline : st.line.length = st.token.length + post.length := by rw [h2]; simp
  have hcur : cursor l st = pre.length + st.token.length := by
    unfold cursor; omega
  refine ⟨post, classify T post, ?_⟩
  rcases classify_cases hT post hzp with
    ⟨hp, hc⟩ | ⟨c, tl, hp, _, _, _, hc⟩ | ⟨tl, hp, hne, hn1, hn2⟩
  · refine ⟨{ st with line := post, token := [] }, get_token_classify hT hrest,
      ?_, ?_, ?_, ?_, ?_, ?_,
      fun _ => hp⟩
    · rw [loop_body_of_rest hT hrest, if_pos hc]
    · exact ⟨pre ++ st.token, post, by simp [hl], rfl⟩
    · omega
    · subst hp; simp [cursor]
    · intro hx; exact absurd hc hx
    · intro _
      refine ⟨hp, ?_⟩
      subst hp
      simp only [List.length_nil, Nat.add_zero] at hlen hline
      simp only [cursor, List.length_nil]
      omega
  · refine ⟨{ st with line := post.tail, token := [],
                      out := st.out ++ file_write_token_error post },
      get_token_classify hT hrest, ?_, ?_, ?_, ?_, ?_, ?_,
      fun hx => by rw [hc] at hx; exact absurd hx.symm NULL_ne_ERROR⟩
    · rw [loop_body_of_rest hT hrest, hc, if_neg (Ne.symm NULL_ne_ERROR), if_pos rfl]
    · subst hp
      exact ⟨pre ++ st.token ++ [c], tl, by simp [hl], rfl⟩
    · omega
    · subst hp; simp [cursor]
    · intro _
      subst hp
      simp only [List.length_cons] at hlen hline
      simp only [cursor, List.tail_cons, List.length_nil, Nat.add_zero]
      omega
    · intro hx; rw [hc] at hx; exact absurd hx.symm NULL_ne_ERROR
  · have hplen : post.length = (classify T post).length + tl.length := by
      conv_lhs => rw [hp]
      simp
    have hpos : 0 < (classify T post).length := List.length_pos.mpr hne
    refine ⟨{ line := post, token := classify T post,
              start := (write_and_count st.start st.count (classify T post)).1,
              count := (write_and_count st.start st.count (classify T post)).2.1,
              out := st.out ++ (write_and_count st.start st.count (classify T post)).2.2 },
      get_token_classify hT hrest, ?_, ?_, ?_, ?_, ?_, ?_, fun hx => absurd hx hn1⟩
    · rw [loop_body_of_rest hT hrest, if_neg hn1, if_neg hn2]
    · exact ⟨pre ++ st.token, tl, by simp [hl], hp⟩
    · omega
    · simp only [cursor]; omega
    · intro _
      simp only [cursor]
      omega
    · intro hx; exact absurd hx hn1

/-- The inner loop ends within the fuel that `main_line` gives it. -/
theorem scan_loop_enough {T : Nat} (hT : 6 ≤ T) {l : List Char} (hz : NUL ∉ l) :
    ∀ (fuel : Nat) (st : Scan), scan_inv l st → l.length + 2 ≤ fuel + cursor l st →
      ∃ st1, scan_loop T fuel st = some st1 := by
  intro fuel
  induction fuel with
  | zero =>
    intro st hi hf
    obtain ⟨_, _, _, _, _, _, h1, _⟩ := loop_body_inv hT hz hi
    omega
  | succ fuel ih =>
    intro st hi hf
    obtain ⟨rest, tok, st1, _, hb, hi1, h1, h2, h3, h4, h5⟩ := loop_body_inv hT hz hi
    unfold scan_loop
    rw [loop_cond_of_inv hi]
    by_cases hlen : st.line.length > 1
    · simp only [hlen, decide_True, hb]
      by_cases hn : tok = "NULL".toList
      · have hline := h5 hn
        cases fuel with
        | zero => omega
        | succ fuel =>
          refine ⟨st1, ?_⟩
          unfold scan_loop
          rw [loop_cond_of_inv hi1, hline]
          rfl
      · exact ih st1 hi1 (by have := h3 hn; omega)
    · simp only [hlen, decide_False]
      exact ⟨st, rfl⟩

theorem NUL_not_mem_squeeze (input_line : List Char) : NUL ∉ squeeze_together input_line := by
  intro h
  simp [squeeze_together] at h

/-- The scan of a line that `fgets` has read always ends with a result. -/
theorem main_line_total {T : Nat} (hT : 6 ≤ T) (input_line : List Char) (s k : Int) :
    ∃ r, main_line T input_line s k = some r := by
  unfold main_line
  by_cases h : squeeze_together input_line = []
  · simp [h]
  · simp only [h, if_false]
    obtain ⟨st1, h1⟩ := scan_loop_enough hT (NUL_not_mem_squeeze input_line)
      ((squeeze_together input_line).length + 2) _
      (scan_inv_init (squeeze_together input_line) s k) (by omega)
    rw [h1]
    exact ⟨_, rfl⟩

/-- One run of the loop body of `main` acts on the counters and on the output
as one step of the formatter. -/
theorem loop_body_step {T : Nat} {st st1 : Scan} (h : loop_body T st = some st1) :
    ∃ r, ({ start := st1.start, count := st1.count, out := st1.out } : Fmt) =
      Fmt.step { start := st.start, count := st.count, out := st.out } r := by
  unfold loop_body at h
  cases hg : get_token T st.line st.token with
  | none => rw [hg] at h; simp at h
  | some p =>
    obtain ⟨line, token⟩ := p
    rw [hg] at h
    simp only at h
    split_ifs at h with h1 h2
    · simp only [Option.some.injEq] at h
      subst h
      exact ⟨ScanResult.endOfLine, rfl⟩
    · simp only [Option.some.injEq] at h
      subst h
      exact ⟨ScanResult.invalid (charAt line 0), rfl⟩
    · simp only [Option.some.injEq] at h
      subst h
      exact ⟨ScanResult.token token, rfl⟩

/-! ## The formatter -/

theorem write_and_count_eq (s k : Int) (text : List Char) :
    write_and_count s k text =
      (if text = ";".toList then s + 1 else s,
       if text = ";".toList then 0 else k + 1,
       (if k = 0 ∧ s > 1 then [Record.separator] else []) ++
         (if k = 0 then [Record.header s] else []) ++ [Record.lexeme k text]) := by
  unfold write_and_count file_write_token
  by_cases ht : text = [';'] <;> by_cases hk : k = 0 <;> by_cases hs : s > 1 <;>
    simp [ht, hk, hs]

theorem headers_append (a b : List Record) : headers (a ++ b) = headers a + headers b := by
  induction a with
  | nil => simp [headers]
  | cons r a ih => cases r <;> simp [headers, ih, Nat.add_assoc]

theorem step_token (f : Fmt) (t : List Char) :
    f.step (ScanResult.token t) =
      { start := if t = ";".toList then f.start + 1 else f.start,
        count := if t = ";".toList then 0 else f.count + 1,
        out := f.out ++ ((if f.count = 0 ∧ f.start > 1 then [Record.separator] else []) ++
          (if f.count = 0 then [Record.header f.start] else []) ++
          [Record.lexeme f.count t]) } := by
  simp only [Fmt.step, write_and_count_eq f.start f.count t]

theorem feed_cons (f : Fmt) (r : ScanResult) (rs : List ScanResult) :
    f.feed (r :: rs) = (f.step r).feed rs := rfl

theorem step_token_count (f : Fmt) (t : List Char) :
    (f.step (ScanResult.token t)).count = if t = [';'] then 0 else f.count + 1 := by
  rw [step_token]; rfl

theorem step_token_headers (f : Fmt) (t : List Char) :
    headers (f.step (ScanResult.token t)).out =
      headers f.out + (if f.count = 0 then 1 else 0) := by
  rw [step_token]; dsimp only
  rw [headers_append]
  by_cases hk : f.count = 0 <;> by_cases hs : f.start > 1 <;> simp [hk, hs, headers]

theorem headers_feed_tokens (ts : List (List Char)) :
    ∀ f : Fmt, 0 ≤ f.count →
      headers (f.feed (ts.map ScanResult.token)).out
          + (if f.count ≠ 0 ∧ ts ≠ [] then 1 else 0) =
        headers f.out + List.count [';'] ts
          + (if ts = [] ∨ ts.getLast? = some [';'] then 0 else 1) := by
  induction ts with
  | nil => intro f _; simp [Fmt.feed]
  | cons t ts ih =>
    intro f hf
    rw [List.map_cons, feed_cons]
    have hcnt := step_token_count f t
    have hc : 0 ≤ (f.step (ScanResult.token t)).count := by
      rw [hcnt]; split_ifs <;> omega
    have h := ih (f.step (ScanResult.token t)) hc
    have ho := step_token_headers f t
    rw [ho] at h
    rw [List.count_cons]
    cases ts with
    | nil =>
      simp only [List.map_nil, Fmt.feed, List.foldl_nil] at h ⊢
      rw [ho]
      by_cases ht : t = [';'] <;> by_cases hz : f.count = 0 <;> simp [ht, hz]
    | cons u us =>
      rw [List.getLast?_cons_cons]
      simp only [ne_eq, List.cons_ne_nil, not_false_eq_true, and_true, false_or] at h ⊢
      by_cases ht : t = [';']
      · have hk0 : (f.step (ScanResult.token t)).count = 0 := by rw [hcnt, if_pos ht]
        rw [if_neg (not_not.mpr hk0)] at h
        by_cases hz : f.count = 0 <;> simp [ht, hz] at h ⊢ <;> omega
      · have hk0 : ¬ (f.step (ScanResult.token t)).count = 0 := by
          rw [hcnt, if_neg ht]; omega
        rw [if_pos hk0] at h
        by_cases hz : f.count = 0 <;> simp [ht, hz] at h ⊢ <;> omega

theorem counting_from_succ (k : Int) (m : Nat) :
    counting_from k (m + 1) = k :: counting_from (k + 1) m := by
  unfold counting_from
  rw [List.range_succ_eq_map]
  simp only [List.map_cons, List.map_map, Int.ofNat_eq_coe, Nat.cast_zero, add_zero,
    List.cons.injEq, true_and]
  apply List.map_congr_left
  intro i _
  simp only [Function.comp_apply, Nat.cast_succ]
  omega

theorem counting_eq (n : Nat) : counting n = counting_from 0 n := by
  unfold counting counting_from
  apply List.map_congr_left
  intro i _
  simp

theorem length_counting_from (k : Int) (m : Nat) : (counting_from k m).length = m := by
  simp [counting_from]

/-- What a stream of scan results adds to the output, from any state of the
formatter with a count that is not negative. -/
theorem feed_records (rs : List ScanResult) :
    ∀ f : Fmt, 0 ≤ f.count →
      ∃ new, (f.feed rs).out = f.out ++ new ∧ well_numbered new ∧
        ∃ m : Nat, indices_to_header new = counting_from f.count m ∧
          (f.count = 0 → m = 0) := by
  induction rs with
  | nil =>
    intro f _
    exact ⟨[], by simp [Fmt.feed], trivial, 0, rfl, fun _ => rfl⟩
  | cons r rs ih =>
    intro f hf
    rw [feed_cons]
    cases r with
    | endOfLine => exact ih f hf
    | invalid c =>
      obtain ⟨new, h1, h2, m, h3, h4⟩ :=
        ih { f with out := f.out ++ file_write_token_error [c] } hf
      refine ⟨Record.error (charAt [c] 0) :: new, ?_, h2, m, h3, h4⟩
      simp only [Fmt.step]
      rw [h1]
      simp [file_write_token_error]
    | token t =>
      have hcnt := step_token_count f t
      have hc : 0 ≤ (f.step (ScanResult.token t)).count := by
        rw [hcnt]; split_ifs <;> omega
      obtain ⟨new, h1, h2, m, h3, h4⟩ := ih (f.step (ScanResult.token t)) hc
      rw [hcnt] at h3 h4
      have hout : (f.step (ScanResult.token t)).out =
          f.out ++ ((if f.count = 0 ∧ f.start > 1 then [Record.separator] else []) ++
            (if f.count = 0 then [Record.header f.start] else []) ++
            [Record.lexeme f.count t]) := by
        rw [step_token]
      rw [h1, hout, List.append_assoc]
      refine ⟨_, rfl, ?_⟩
      have hseg : indices_to_header (Record.lexeme f.count t :: new) =
          counting_from f.count (m + 1) := by
        rw [counting_from_succ]
        simp only [indices_to_header, List.cons.injEq, true_and]
        by_cases ht : t = [';']
        · rw [if_pos ht] at h3 h4
          rw [h3, h4 rfl]
          rfl
        · rw [if_neg ht] at h3
          exact h3
      by_cases hk : f.count = 0
      · have hwn : well_numbered (Record.header f.start :: Record.lexeme f.count t :: new) := by
          refine ⟨?_, h2⟩
          rw [hseg, length_counting_from, counting_eq, hk]
        by_cases hs : f.start > 1
        · simp only [hk, hs, and_self, if_true, List.cons_append, List.nil_append]
          rw [hk] at hwn
          exact ⟨hwn, 0, rfl, fun _ => rfl⟩
        · simp only [hk, hs, and_false, if_false, if_true, List.cons_append, List.nil_append]
          rw [hk] at hwn
          exact ⟨hwn, 0, rfl, fun _ => rfl⟩
      · simp only [hk, false_and, if_false, List.nil_append, List.cons_append]
        exact ⟨h2, m + 1, hseg, fun h => h.elim⟩

theorem well_numbered_split :
    ∀ (pre : List Record) (n : Int) (post : List Record),
      well_numbered (pre ++ Record.header n :: post) →
      indices_to_header post = counting (indices_to_header post).length := by
  intro pre
  induction pre with
  | nil => intro n post h; exact h.1
  | cons r pre ih =>
    intro n post h
    cases r with
    | header k => exact ih n post h.2
    | separator => exact ih n post h
    | lexeme k t => exact ih n post h
    | error c => exact ih n post h

/-! ## The normalizer -/

theorem squeeze_together_mem {l : List Char} {c : Char} (h : c ∈ squeeze_together l) :
    c ∈ l ∧ c ∉ removed_characters ∧ c ≠ NUL := by
  have h1 := List.mem_filter.mp h
  refine ⟨h1.1, ?_, ?_⟩
  · intro hr
    simp only [removed_characters, List.mem_cons, List.mem_singleton, List.not_mem_nil,
      or_false] at hr
    have hp := h1.2
    rcases hr with rfl | rfl | rfl | rfl | rfl | rfl | rfl | rfl <;> exact absurd hp (by decide)
  · rintro rfl
    exact absurd h1.2 (by decide)

theorem squeeze_together_keeps {l : List Char} {c : Char} (hm : c ∈ l)
    (hr : c ∉ removed_characters) (hn : c ≠ NUL) : c ∈ squeeze_together l := by
  refine List.mem_filter.mpr ⟨hm, ?_⟩
  simp only [removed_characters, List.mem_cons, List.mem_singleton, List.not_mem_nil,
    or_false, not_or] at hr
  simp [hr, hn]

theorem squeeze_together_self {l : List Char} (hr : ∀ c ∈ l, c ∉ removed_characters)
    (hz : NUL ∉ l) : squeeze_together l = l := by
  unfold squeeze_together
  rw [List.filter_eq_self]
  intro c hc
  have h := squeeze_together_keeps hc (hr c hc) (fun h => hz (h ▸ hc))
  exact (List.mem_filter.mp h).2
/-! ## The document and the formatter -/

theorem scan_loop_feed (T : Nat) :
    ∀ (fuel : Nat) (st st1 : Scan), scan_loop T fuel st = some st1 →
      ∃ rs, Fmt.feed ⟨st.start, st.count, st.out⟩ rs =
        ⟨st1.start, st1.count, st1.out⟩ := by
  intro fuel
  induction fuel with
  | zero => intro st st1 h; simp [scan_loop] at h
  | succ fuel ih =>
    intro st st1 h
    unfold scan_loop at h
    cases hc : loop_cond st with
    | none => rw [hc] at h; simp at h
    | some b =>
      rw [hc] at h
      cases b with
      | false =>
        simp only [Option.some.injEq] at h
        subst h
        exact ⟨[], rfl⟩
      | true =>
        simp only at h
        cases hb : loop_body T st with
        | none => rw [hb] at h; simp at h
        | some st2 =>
          rw [hb] at h
          simp only at h
          obtain ⟨r, hr⟩ := loop_body_step hb
          obtain ⟨rs, hrs⟩ := ih st2 st1 h
          refine ⟨r :: rs, ?_⟩
          rw [feed_cons, ← hr, hrs]

theorem step_out_append (s k : Int) (o x : List Record) (r : ScanResult) :
    Fmt.step ⟨s, k, o ++ x⟩ r =
      ⟨(Fmt.step ⟨s, k, x⟩ r).start, (Fmt.step ⟨s, k, x⟩ r).count,
        o ++ (Fmt.step ⟨s, k, x⟩ r).out⟩ := by
  cases r <;> simp [Fmt.step, List.append_assoc]

theorem feed_out_append (rs : List ScanResult) :
    ∀ (s k : Int) (o x : List Record),
      Fmt.feed ⟨s, k, o ++ x⟩ rs =
        ⟨(Fmt.feed ⟨s, k, x⟩ rs).start, (Fmt.feed ⟨s, k, x⟩ rs).count,
          o ++ (Fmt.feed ⟨s, k, x⟩ rs).out⟩ := by
  induction rs with
  | nil => intro s k o x; rfl
  | cons r rs ih =>
    intro s k o x
    rw [feed_cons, feed_cons, step_out_append, ih]

theorem feed_append (f : Fmt) (a b : List ScanResult) :
    f.feed (a ++ b) = (f.feed a).feed b := by
  simp [Fmt.feed, List.foldl_append]

theorem main_line_feed {T : Nat} {l : List Char} {s k : Int}
    {r : Int × Int × List Record} (h : main_line T l s k = some r) :
    ∃ rs, Fmt.feed ⟨s, k, []⟩ rs = ⟨r.1, r.2.1, r.2.2⟩ := by
  unfold main_line at h
  by_cases hs : squeeze_together l = []
  · simp only [hs, if_true, Option.some.injEq] at h
    subst h
    exact ⟨[], rfl⟩
  · simp only [hs, if_false, Option.map_eq_some'] at h
    obtain ⟨st1, h1, h2⟩ := h
    subst h2
    exact scan_loop_feed T _ _ st1 h1

theorem main_lines_feed (T : Nat) :
    ∀ (doc : List (List Char)) (s k : Int) (r : Int × Int × List Record),
      main_lines T doc s k = some r →
      ∃ rs, Fmt.feed ⟨s, k, []⟩ rs = ⟨r.1, r.2.1, r.2.2⟩ := by
  intro doc
  induction doc with
  | nil =>
    intro s k r h
    simp only [main_lines, Option.some.injEq] at h
    subst h
    exact ⟨[], rfl⟩
  | cons l ls ih =>
    intro s k r h
    unfold main_lines at h
    cases h1 : main_line T l s k with
    | none => rw [h1] at h; simp at h
    | some r1 =>
      rw [h1] at h
      simp only at h
      cases h2 : main_lines T ls r1.1 r1.2.1 with
      | none => rw [h2] at h; simp at h
      | some r2 =>
        rw [h2] at h
        simp only [Option.some.injEq] at h
        subst h
        obtain ⟨rs1, e1⟩ := main_line_feed h1
        obtain ⟨rs2, e2⟩ := ih _ _ _ h2
        refine ⟨rs1 ++ rs2, ?_⟩
        rw [feed_append, e1]
        have e3 := feed_out_append rs2 r1.1 r1.2.1 r1.2.2 []
        rw [List.append_nil] at e3
        rw [e3, e2]

theorem feed_layout (rs : List ScanResult) :
    ∀ f : Fmt, 0 ≤ f.count →
      ∃ new, (f.feed rs).out = f.out ++ new ∧
        layout false (if f.count = 0 then f.start else f.start + 1) new := by
  induction rs with
  | nil =>
    intro f _
    exact ⟨[], by simp [Fmt.feed], rfl⟩
  | cons r rs ih =>
    intro f hf
    rw [feed_cons]
    cases r with
    | endOfLine => exact ih f hf
    | invalid c =>
      obtain ⟨new, h1, h2⟩ := ih { f with out := f.out ++ file_write_token_error [c] } hf
      refine ⟨Record.error (charAt [c] 0) :: new, ?_, ?_⟩
      · simp only [Fmt.step]
        rw [h1]
        simp [file_write_token_error]
      · exact ⟨rfl, h2⟩
    | token t =>
      have hcnt := step_token_count f t
      have hst : (f.step (ScanResult.token t)).start =
          if t = [';'] then f.start + 1 else f.start := by
        rw [step_token]; rfl
      have hc : 0 ≤ (f.step (ScanResult.token t)).count := by
        rw [hcnt]; split_ifs <;> omega
      obtain ⟨new, h1, h2⟩ := ih (f.step (ScanResult.token t)) hc
      have hout : (f.step (ScanResult.token t)).out =
          f.out ++ ((if f.count = 0 ∧ f.start > 1 then [Record.separator] else []) ++
            (if f.count = 0 then [Record.header f.start] else []) ++
            [Record.lexeme f.count t]) := by
        rw [step_token]
      have hnext : (if (f.step (ScanResult.token t)).count = 0
            then (f.step (ScanResult.token t)).start
            else (f.step (ScanResult.token t)).start + 1) = f.start + 1 := by
        rw [hcnt, hst]
        by_cases ht : t = [';']
        · simp [ht]
        · have : ¬ f.count + 1 = 0 := by omega
          simp [ht, this]
      rw [hnext] at h2
      rw [h1, hout, List.append_assoc]
      refine ⟨_, rfl, ?_⟩
      by_cases hk : f.count = 0
      · by_cases hs : f.start > 1
        · simp only [hk, hs, and_self, if_true, List.cons_append, List.nil_append]
          exact ⟨rfl, rfl, ⟨fun _ => hs, fun _ => rfl⟩, rfl, h2⟩
        · simp only [hk, hs, and_false, if_false, if_true, List.cons_append, List.nil_append]
          exact ⟨rfl, ⟨fun h => absurd h (by decide), fun h => absurd h hs⟩, rfl, h2⟩
      · simp only [hk, false_and, if_false, List.nil_append, List.cons_append]
        exact ⟨rfl, h2⟩

theorem layout_split :
    ∀ (pre : List Record) (sep : Bool) (s : Int) (r : Record) (post : List Record),
      layout sep s (pre ++ r :: post) →
      (∀ n, r = Record.header n →
        n = s + headers pre ∧
        ((pre.getLast? = some Record.separator ∨ (pre = [] ∧ sep = true)) ↔ n > 1)) ∧
      (r = Record.separator → ∃ n, post.head? = some (Record.header n)) := by
  intro pre
  induction pre with
  | nil =>
    intro sep s r post h
    simp only [List.nil_append] at h
    constructor
    · rintro n rfl
      obtain ⟨h1, h2, _⟩ := h
      subst h1
      simp [headers, h2]
    · rintro rfl
      have h2 : layout true s post := h.2
      cases post with
      | nil => exact absurd h2 (by simp [layout])
      | cons x xs =>
        cases x with
        | header n => exact ⟨n, rfl⟩
        | separator => exact absurd h2.1 (by decide)
        | lexeme a b => exact absurd h2.1 (by decide)
        | error a => exact absurd h2.1 (by decide)
  | cons x pre ih =>
    intro sep s r post h
    have key : ∀ (sep1 : Bool) (s1 : Int), layout sep1 s1 (pre ++ r :: post) →
        s1 = s + headers [x] → (sep1 = true ↔ x = Record.separator) →
        (∀ n, r = Record.header n →
          n = s + headers (x :: pre) ∧
          (((x :: pre).getLast? = some Record.separator ∨ (x :: pre = [] ∧ sep = true)) ↔
            n > 1)) ∧
        (r = Record.separator → ∃ n, post.head? = some (Record.header n)) := by
      intro sep1 s1 hl hs1 hsep1
      obtain ⟨ih1, ih2⟩ := ih sep1 s1 r post hl
      refine ⟨?_, ih2⟩
      intro n hn
      obtain ⟨e1, e2⟩ := ih1 n hn
      have hh : headers (x :: pre) = headers [x] + headers pre := headers_append [x] pre
      refine ⟨by rw [e1, hs1, hh]; push_cast; ring, ?_⟩
      rw [← e2]
      cases pre with
      | nil => simp [hsep1]
      | cons y ys => simp [List.getLast?_cons_cons]
    cases x with
    | separator => exact key true s h.2 (by simp [headers]) (by simp)
    | header m =>
      obtain ⟨h1, _, h3⟩ := h
      exact key false (s + 1) h3 (by simp [headers]) (by simp)
    | lexeme a b => exact key false s h.2 (by simp [headers]) (by simp)
    | error a => exact key false s h.2 (by simp [headers]) (by simp)

/-! ## What the inner loop scans of a line -/

theorem main_lines_total {T : Nat} (hT : 6 ≤ T) :
    ∀ (doc : List (List Char)) (s k : Int), ∃ r, main_lines T doc s k = some r := by
  intro doc
  induction doc with
  | nil => intro s k; exact ⟨_, rfl⟩
  | cons l ls ih =>
    intro s k
    obtain ⟨r1, h1⟩ := main_line_total hT l s k
    obtain ⟨r2, h2⟩ := ih r1.1 r1.2.1
    refine ⟨(r2.1, r2.2.1, r1.2.2 ++ r2.2.2), ?_⟩
    unfold main_lines
    rw [h1]
    simp only
    rw [h2]

/-- The program writes its records for every document. -/
theorem main_output_total {T : Nat} (hT : 6 ≤ T) (doc : List (List Char)) :
    ∃ out, main_output T doc = some out := by
  obtain ⟨r, h⟩ := main_lines_total hT doc 1 0
  exact ⟨r.2.2, by unfold main_output; rw [h]; rfl⟩

/-! ## Lines whose tokens fit every token buffer -/

theorem strstr_suffix : ∀ (l t r : List Char), strstr l t = some r → r <:+ l := by
  intro l
  induction l with
  | nil =>
    intro t r h
    simp only [strstr] at h
    split_ifs at h
    simp only [Option.some.injEq] at h
    exact h ▸ List.suffix_refl _
  | cons c cs ih =>
    intro t r h
    simp only [strstr] at h
    split_ifs at h
    · simp only [Option.some.injEq] at h
      exact h ▸ List.suffix_refl _
    · exact (ih t r h).trans (List.suffix_cons c cs)

theorem string_after_token_suffix {l t r : List Char}
    (h : string_after_token l t = some r) : r <:+ l := by
  unfold string_after_token at h
  split_ifs at h
  · simp only [Option.map_eq_some'] at h
    obtain ⟨x, hx, rfl⟩ := h
    exact (List.drop_suffix _ _).trans (strstr_suffix l t x hx)
  · simp only [Option.some.injEq] at h
    exact h ▸ List.suffix_refl _

theorem classify_fit {T : Nat} (hT : 6 ≤ T) (rest : List Char)
    (h : (rest.takeWhile isdigit).length ≤ 6) : classify T rest = classify 6 rest := by
  cases rest with
  | nil => rfl
  | cons c tl =>
    simp only [classify]
    rw [List.take_of_length_le (by omega), List.take_of_length_le h]

theorem loop_body_fit {T : Nat} (hT : 6 ≤ T) (st : Scan)
    (hfit : ∀ r, r <:+ st.line → (r.takeWhile isdigit).length ≤ 6) :
    loop_body T st = loop_body 6 st ∧
      ∀ st1, loop_body 6 st = some st1 → st1.line <:+ st.line := by
  cases h : string_after_token st.line st.token with
  | none =>
    have e : ∀ n, loop_body n st = none := by
      intro n
      unfold loop_body
      rw [get_token_scanned, h]
      rfl
    rw [e T, e 6]
    exact ⟨rfl, fun st1 h1 => by simp at h1⟩
  | some rest =>
    have hs := string_after_token_suffix h
    rw [loop_body_of_rest hT h, loop_body_of_rest (Nat.le_refl 6) h,
      classify_fit hT rest (hfit rest hs)]
    refine ⟨rfl, ?_⟩
    intro st1 h1
    split_ifs at h1
    · simp only [Option.some.injEq] at h1
      subst h1
      exact hs
    · simp only [Option.some.injEq] at h1
      subst h1
      exact (List.tail_suffix rest).trans hs
    · simp only [Option.some.injEq] at h1
      subst h1
      exact hs

theorem scan_loop_fit {T : Nat} (hT : 6 ≤ T) :
    ∀ (fuel : Nat) (st : Scan),
      (∀ r, r <:+ st.line → (r.takeWhile isdigit).length ≤ 6) →
      scan_loop T fuel st = scan_loop 6 fuel st := by
  intro fuel
  induction fuel with
  | zero => intro st _; rfl
  | succ fuel ih =>
    intro st hfit
    obtain ⟨e, hsuf⟩ := loop_body_fit hT st hfit
    unfold scan_loop
    rw [e]
    cases hc : loop_cond st with
    | none => rfl
    | some b =>
      cases b with
      | false => rfl
      | true =>
        simp only
        cases hb : loop_body 6 st with
        | none => rfl
        | some st1 =>
          simp only
          exact ih st1 (fun r hr => hfit r (hr.trans (hsuf st1 hb)))

/-- On a line whose runs of digits have at most six digits, `main` does the
same with every token buffer that holds the sentinels. -/
theorem main_line_fit {T : Nat} (hT : 6 ≤ T) (l : List Char) (s k : Int)
    (h : digit_runs_fit 6 (squeeze_together l) = true) :
    main_line T l s k = main_line 6 l s k := by
  unfold main_line
  by_cases hs : squeeze_together l = []
  · simp [hs]
  · simp only [hs, if_false]
    rw [scan_loop_fit hT]
    intro r hr
    unfold digit_runs_fit at h
    rw [List.all_eq_true] at h
    have := h r ((List.mem_tails r _).mpr hr)
    exact of_decide_eq_true this

/-- A run of more than `TSIZE` digits is cut: the token is its first `TSIZE`
digits. -/
theorem get_token_cut {T : Nat} (hT : 6 ≤ T) {line token rest : List Char}
    (hrest : string_after_token line token = some rest)
    (hd : isdigit (charAt rest 0) = true)
    (hlong : T < (rest.takeWhile isdigit).length) :
    get_token T line token = some (rest, (rest.takeWhile isdigit).take T) ∧
    (rest.takeWhile isdigit).take T ≠ rest.takeWhile isdigit := by
  cases rest with
  | nil => exact absurd hd (by decide)
  | cons c tl =>
    have hc : isdigit c = true := hd
    refine ⟨by rw [get_token_classify hT hrest, classify_digit T hc], ?_⟩
    intro h
    have := congrArg List.length h
    rw [List.length_take] at this
    omega

/-! ## The claims -/

/-- C1: on the squeezed line `x;` the scan of `main` reports the character `x`
and stops: the terminator is never scanned, so one character of the two is
accounted for.  A line that is the single character `;` gives no record.
This holds for every token buffer of `n + 6` cells, that is, for every
`TSIZE` that lets the buffer hold the sentinels. -/
theorem main_line_skips_last_character (n : Nat) :
    squeeze_together "x;".toList = "x;".toList ∧
    main_line (n + 6) "x;".toList 1 0 = some (1, 0, [Record.error 'x']) ∧
    consumed [Record.error 'x'] = 1 ∧ "x;".toList.length = 2 ∧
    emitted [Record.error 'x'] = "x".toList ∧
    main_line (n + 6) ";".toList 1 0 = some (1, 0, []) := by
  refine ⟨by decide, ?_, by decide, by decide, by decide, ?_⟩
  · rw [main_line_fit (Nat.le_add_left 6 n) _ _ _ (by decide)]
    decide
  · rw [main_line_fit (Nat.le_add_left 6 n) _ _ _ (by decide)]
    decide

/-- C2: when the text that remains starts with one of the twelve symbols
followed by `=`, `get_token` returns that symbol followed by `=`, and the next
call skips these two characters; on the line `1<=2;3>4;` the second token
written is `<=`.  Here and below `6 ≤ TSIZE` says that the token buffer holds
the sentinel "ERROR" with its terminator. -/
theorem get_token_compound_operator (TSIZE : Nat) (hT : 6 ≤ TSIZE)
    (line token : List Char) (c : Char) (tl : List Char)
    (hrest : string_after_token line token = some (c :: '=' :: tl))
    (hop : c ∈ operator_symbols) :
    get_token TSIZE line token = some (c :: '=' :: tl, [c, '=']) ∧
    string_after_token (c :: '=' :: tl) [c, '='] = some tl ∧
    main_line TSIZE "1<=2;3>4;".toList 1 0 = some (3, 0,
      [Record.header 1, Record.lexeme 0 "1".toList, Record.lexeme 1 "<=".toList,
       Record.lexeme 2 "2".toList, Record.lexeme 3 ";".toList,
       Record.separator, Record.header 2, Record.lexeme 0 "3".toList,
       Record.lexeme 1 ">".toList, Record.lexeme 2 "4".toList,
       Record.lexeme 3 ";".toList]) := by
  refine ⟨?_, string_after_token_append [c, '='] tl, ?_⟩
  · rw [get_token_classify hT hrest, classify_operator TSIZE hop]
    simp
  · rw [main_line_fit hT _ _ _ (by decide)]
    decide

theorem get_token_compound_operator_witness :
    string_after_token "1<=2".toList "1".toList = some ('<' :: '=' :: "2".toList) ∧
    '<' ∈ operator_symbols ∧
    get_token 20 "1<=2".toList "1".toList = some ("<=2".toList, "<=".toList) ∧
    string_after_token "<=2".toList "<=".toList = some "2".toList :=
  ⟨by decide, by decide,
    (get_token_compound_operator 20 (by decide) "1<=2".toList "1".toList '<' "2".toList
      (by decide) (by decide)).1,
    (get_token_compound_operator 20 (by decide) "1<=2".toList "1".toList '<' "2".toList
      (by decide) (by decide)).2.1⟩

/-- C4: when the text that remains starts with a character that is neither
one of the twelve symbols nor a digit, `get_token` returns "ERROR" whatever
follows; the loop body of `main` then reports that character and moves `line`
past it, clearing the token, so that the next call scans from the second
character. -/
theorem get_token_invalid (TSIZE : Nat) (hT : 6 ≤ TSIZE) (st : Scan) (c : Char)
    (tl : List Char)
    (hrest : string_after_token st.line st.token = some (c :: tl))
    (hop : c ∉ operator_symbols) (hd : isdigit c = false) (hn : c ≠ NUL) :
    get_token TSIZE st.line st.token = some (c :: tl, "ERROR".toList) ∧
    loop_body TSIZE st =
      some { st with line := tl, token := [], out := st.out ++ [Record.error c] } ∧
    string_after_token tl [] = some tl := by
  refine ⟨?_, ?_, string_after_token_nil tl⟩
  · rw [get_token_classify hT hrest, classify_invalid TSIZE hop hd hn]
  · rw [loop_body_of_rest hT hrest, classify_invalid TSIZE hop hd hn]
    rw [if_neg (Ne.symm NULL_ne_ERROR), if_pos rfl]
    rfl

theorem get_token_invalid_witness :
    string_after_token "x=1".toList [] = some ('x' :: "=1".toList) ∧
    'x' ∉ operator_symbols ∧ isdigit 'x' = false ∧ 'x' ≠ NUL ∧
    get_token 20 "x=1".toList [] = some ("x=1".toList, "ERROR".toList) ∧
    loop_body 20 (scan_init "x=1".toList 1 0) =
      some ⟨"=1".toList, [], 1, 0, [Record.error 'x']⟩ :=
  ⟨by decide, by decide, by decide, by decide,
    (get_token_invalid 20 (by decide) (scan_init "x=1".toList 1 0) 'x' "=1".toList
      (by decide) (by decide) (by decide) (by decide)).1,
    (get_token_invalid 20 (by decide) (scan_init "x=1".toList 1 0) 'x' "=1".toList
      (by decide) (by decide) (by decide) (by decide)).2.1⟩

/-- C5: when the text that remains starts with one of the twelve symbols and
no `=` follows it, `get_token` returns that symbol alone, and the next call
skips this one character. -/
theorem get_token_single_operator (TSIZE : Nat) (hT : 6 ≤ TSIZE)
    (line token : List Char) (c : Char) (tl : List Char)
    (hrest : string_after_token line token = some (c :: tl))
    (hop : c ∈ operator_symbols) (hne : tl.head? ≠ some '=') :
    get_token TSIZE line token = some (c :: tl, [c]) ∧
    string_after_token (c :: tl) [c] = some tl := by
  refine ⟨?_, string_after_token_append [c] tl⟩
  rw [get_token_classify hT hrest, classify_operator TSIZE hop, if_neg hne]

theorem get_token_single_operator_witness :
    string_after_token "2+3".toList "2".toList = some ('+' :: "3".toList) ∧
    '+' ∈ operator_symbols ∧ "3".toList.head? ≠ some '=' ∧
    get_token 20 "2+3".toList "2".toList = some ("+3".toList, "+".toList) ∧
    string_after_token "+3".toList "+".toList = some "3".toList :=
  ⟨by decide, by decide, by decide,
    (get_token_single_operator 20 (by decide) "2+3".toList "2".toList '+' "3".toList
      (by decide) (by decide) (by decide)).1,
    (get_token_single_operator 20 (by decide) "2+3".toList "2".toList '+' "3".toList
      (by decide) (by decide) (by decide)).2⟩

/-- C6: `get_token` returns "NULL" exactly when no character remains once the
previous token has been skipped; the global `line` then stays at the end of
the line, and the loop body of `main` only clears the token. -/
theorem get_token_NULL_iff (TSIZE : Nat) (hT : 6 ≤ TSIZE) (st : Scan) (rest : List Char)
    (hrest : string_after_token st.line st.token = some rest) (hz : NUL ∉ rest) :
    (∃ tok, get_token TSIZE st.line st.token = some (rest, tok)) ∧
    (get_token TSIZE st.line st.token = some (rest, "NULL".toList) ↔ rest = []) ∧
    (rest = [] → loop_body TSIZE st = some { st with line := [], token := [] }) := by
  refine ⟨⟨classify TSIZE rest, get_token_classify hT hrest⟩, ?_, ?_⟩
  · rw [get_token_classify hT hrest]
    constructor
    · intro h
      simp only [Option.some.injEq, Prod.mk.injEq, true_and] at h
      rcases classify_cases hT rest hz with h1 | ⟨c, tl, _, _, _, _, h2⟩ | ⟨tl, _, _, h3, _⟩
      · exact h1.1
      · rw [h2] at h; exact absurd h.symm NULL_ne_ERROR
      · exact absurd h h3
    · rintro rfl; rfl
  · rintro rfl
    rw [loop_body_of_rest hT hrest]
    rfl

theorem get_token_NULL_iff_witness :
    string_after_token "12".toList "12".toList = some [] ∧ NUL ∉ ([] : List Char) ∧
    (get_token 20 "12".toList "12".toList = some ([], "NULL".toList) ↔
      ([] : List Char) = []) :=
  ⟨by decide, by decide,
    (get_token_NULL_iff 20 (by decide) ⟨"12".toList, "12".toList, 1, 1, []⟩ []
      (by decide) (by decide)).2.1⟩

/-- C8: `file_write_token` followed by `count++` writes a separator line when
the count is 0 and the statement number exceeds 1, the statement header when
the count is 0, and the lexeme line, in this order; after it the statement
number is one more and the count 0 when the text is `;`, and otherwise the
statement number is the same and the count one more. -/
theorem write_and_count_records (s k : Int) (text : List Char) :
    write_and_count s k text =
      (if text = ";".toList then s + 1 else s,
       if text = ";".toList then 0 else k + 1,
       (if k = 0 ∧ s > 1 then [Record.separator] else []) ++
         (if k = 0 then [Record.header s] else []) ++ [Record.lexeme k text]) ∧
    Record.separator.render = String.mk (List.replicate 50 '-') ++ "\n" ∧
    (Record.header s).render = "Statement #" ++ toString s ++ "\n" ∧
    (Record.lexeme k text).render =
      "Lexeme " ++ toString k ++ " is " ++ String.mk text ++ "\n" :=
  ⟨write_and_count_eq s k text, by decide, rfl, rfl⟩

/-- C9, as the spec states it, fails: for the stream `1`, `;` one header is
written and one terminator, not two headers. -/
theorem headers_one_more_than_terminators_fails :
    ¬ (headers (Fmt.init.feed (["1".toList, ";".toList].map ScanResult.token)).out =
        1 + List.count ";".toList ["1".toList, ";".toList]) := by
  decide

/-- C9, amended: for a stream of tokens fed to the formatter from its initial
state, the number of statement headers written is the number of `;` tokens,
plus one when the stream is not empty and its last token is not `;`. -/
theorem headers_feed (ts : List (List Char)) :
    headers (Fmt.init.feed (ts.map ScanResult.token)).out =
      List.count ";".toList ts +
        (if ts = [] ∨ ts.getLast? = some ";".toList then 0 else 1) := by
  have h := headers_feed_tokens ts Fmt.init (by decide)
  simpa [Fmt.init, headers] using h

/-- C10: for a stream of tokens, invalid characters and ends of line fed to
the formatter from its initial state, the lexeme lines that follow a statement
header, up to the next header or the end of the output, carry the indices
0, 1, 2, … in order. -/
theorem lexeme_indices_count_up (rs : List ScanResult) (pre : List Record) (n : Int)
    (post : List Record)
    (hout : (Fmt.init.feed rs).out = pre ++ Record.header n :: post) :
    indices_to_header post = counting (indices_to_header post).length := by
  obtain ⟨new, h1, h2, _⟩ := feed_records rs Fmt.init (by decide)
  have h3 : (Fmt.init.feed rs).out = new := by rw [h1]; rfl
  rw [h3] at hout
  rw [hout] at h2
  exact well_numbered_split pre n post h2

theorem lexeme_indices_count_up_witness :
    (Fmt.init.feed [ScanResult.token "1".toList, ScanResult.invalid 'x', ScanResult.endOfLine,
        ScanResult.token "+".toList, ScanResult.token ";".toList,
        ScanResult.token "2".toList]).out =
      [] ++ Record.header 1 ::
        [Record.lexeme 0 "1".toList, Record.error 'x', Record.lexeme 1 "+".toList,
         Record.lexeme 2 ";".toList, Record.separator, Record.header 2,
         Record.lexeme 0 "2".toList] ∧
    indices_to_header
        [Record.lexeme 0 "1".toList, Record.error 'x', Record.lexeme 1 "+".toList,
         Record.lexeme 2 ";".toList, Record.separator, Record.header 2,
         Record.lexeme 0 "2".toList] = [0, 1, 2] ∧
    indices_to_header
        [Record.lexeme 0 "1".toList, Record.error 'x', Record.lexeme 1 "+".toList,
         Record.lexeme 2 ";".toList, Record.separator, Record.header 2,
         Record.lexeme 0 "2".toList] =
      counting (indices_to_header
        [Record.lexeme 0 "1".toList, Record.error 'x', Record.lexeme 1 "+".toList,
         Record.lexeme 2 ";".toList, Record.separator, Record.header 2,
         Record.lexeme 0 "2".toList]).length :=
  ⟨by decide, by decide,
    lexeme_indices_count_up
      [ScanResult.token "1".toList, ScanResult.invalid 'x', ScanResult.endOfLine,
        ScanResult.token "+".toList, ScanResult.token ";".toList,
        ScanResult.token "2".toList] [] 1 _ (by decide)⟩

/-- C11: when `get_token` returns "ERROR" for the character at `line`, the loop
body of `main` writes the block `===> 'ch'`, `Lexical error: not a lexeme`
for that character and nothing else, and leaves `start` and `count` as they
are; the line `x=1+2;` gives the error block for `x`, the header
`Statement #1` and the lexemes `=`, `1`, `+`, `2`, `;` with the indices 0
to 4. -/
theorem error_block (TSIZE : Nat) (hT : 6 ≤ TSIZE) (st : Scan) (c : Char)
    (tl : List Char)
    (hrest : string_after_token st.line st.token = some (c :: tl))
    (hop : c ∉ operator_symbols) (hd : isdigit c = false) (hn : c ≠ NUL) :
    loop_body TSIZE st =
      some { line := tl, token := [], start := st.start, count := st.count,
             out := st.out ++ [Record.error c] } ∧
    (Record.error c).render =
      "===> \x27" ++ String.mk [c] ++ "\x27\nLexical error: not a lexeme\n" ∧
    (∀ f : Fmt, f.step (ScanResult.invalid c) =
      { start := f.start, count := f.count, out := f.out ++ [Record.error c] }) ∧
    main_line TSIZE "x=1+2;".toList 1 0 = some (2, 0,
      [Record.error 'x', Record.header 1, Record.lexeme 0 "=".toList,
       Record.lexeme 1 "1".toList, Record.lexeme 2 "+".toList, Record.lexeme 3 "2".toList,
       Record.lexeme 4 ";".toList]) ∧
    [Record.error 'x', Record.header 1, Record.lexeme 0 "=".toList,
       Record.lexeme 1 "1".toList, Record.lexeme 2 "+".toList, Record.lexeme 3 "2".toList,
       Record.lexeme 4 ";".toList].map Record.render =
      ["===> \x27x\x27\nLexical error: not a lexeme\n", "Statement #1\n",
       "Lexeme 0 is =\n", "Lexeme 1 is 1\n", "Lexeme 2 is +\n", "Lexeme 3 is 2\n",
       "Lexeme 4 is ;\n"] := by
  refine ⟨?_, rfl, fun f => rfl, ?_, by decide⟩
  · rw [loop_body_of_rest hT hrest, classify_invalid TSIZE hop hd hn]
    rw [if_neg (Ne.symm NULL_ne_ERROR), if_pos rfl]
    rfl
  · rw [main_line_fit hT _ _ _ (by decide)]
    decide

theorem error_block_witness :
    string_after_token "1x2".toList "1".toList = some ('x' :: "2".toList) ∧
    'x' ∉ operator_symbols ∧ isdigit 'x' = false ∧ 'x' ≠ NUL ∧
    loop_body 20
        ⟨"1x2".toList, "1".toList, 1, 1, [Record.header 1, Record.lexeme 0 "1".toList]⟩ =
      some ⟨"2".toList, [], 1, 1,
        [Record.header 1, Record.lexeme 0 "1".toList] ++ [Record.error 'x']⟩ :=
  ⟨by decide, by decide, by decide, by decide,
    (error_block 20 (by decide)
      ⟨"1x2".toList, "1".toList, 1, 1, [Record.header 1, Record.lexeme 0 "1".toList]⟩
      'x' "2".toList (by decide) (by decide) (by decide) (by decide)).1⟩

/-- C12: among the records that `main` writes for a document, the k-th
statement header carries the number k, a separator line comes just before a
header exactly when the header is not the first, and every separator line is
followed at once by a header; the separator line is 50 `-` characters and the
header reads `Statement #n`. -/
theorem headers_numbered (TSIZE : Nat) (document : List (List Char)) (out pre : List Record)
    (r : Record) (post : List Record)
    (hout : main_output TSIZE document = some out) (hsplit : out = pre ++ r :: post) :
    (∀ n, r = Record.header n →
      n = Int.ofNat (headers pre) + 1 ∧
      (pre.getLast? = some Record.separator ↔ headers pre ≠ 0)) ∧
    (r = Record.separator → ∃ n, post.head? = some (Record.header n)) ∧
    Record.separator.render = String.mk (List.replicate 50 '-') ++ "\n" ∧
    (∀ n, (Record.header n).render = "Statement #" ++ toString n ++ "\n") := by
  unfold main_output at hout
  simp only [Option.map_eq_some'] at hout
  obtain ⟨res, h1, h2⟩ := hout
  obtain ⟨rs, hrs⟩ := main_lines_feed TSIZE document 1 0 res h1
  obtain ⟨new, hn1, hn2⟩ := feed_layout rs ⟨1, 0, []⟩ (by decide)
  rw [hrs] at hn1
  simp only [List.nil_append] at hn1
  rw [← hn1, h2, hsplit] at hn2
  simp only [if_true] at hn2
  obtain ⟨l1, l2⟩ := layout_split pre false 1 r post hn2
  refine ⟨?_, l2, by decide, fun n => rfl⟩
  intro n hn
  obtain ⟨e1, e2⟩ := l1 n hn
  refine ⟨by rw [e1]; simp [add_comm], ?_⟩
  have e3 : (pre.getLast? = some Record.separator ∨ (pre = [] ∧ false = true)) ↔
      pre.getLast? = some Record.separator := by simp
  rw [← e3, e2, e1]
  omega

theorem headers_numbered_witness :
    main_output 20 ["1;\n".toList, "x 2;3\n".toList] =
      some ([Record.header 1, Record.lexeme 0 "1".toList, Record.lexeme 1 ";".toList,
        Record.error 'x', Record.separator] ++
        Record.header 2 :: [Record.lexeme 0 "2".toList, Record.lexeme 1 ";".toList,
          Record.separator, Record.header 3, Record.lexeme 0 "3".toList]) ∧
    (∀ n, Record.header 2 = Record.header n →
      n = Int.ofNat (headers [Record.header 1, Record.lexeme 0 "1".toList,
        Record.lexeme 1 ";".toList, Record.error 'x', Record.separator]) + 1 ∧
      ([Record.header 1, Record.lexeme 0 "1".toList, Record.lexeme 1 ";".toList,
        Record.error 'x', Record.separator].getLast? = some Record.separator ↔
        headers [Record.header 1, Record.lexeme 0 "1".toList, Record.lexeme 1 ";".toList,
          Record.error 'x', Record.separator] ≠ 0)) :=
  ⟨by decide,
    (headers_numbered 20 ["1;\n".toList, "x 2;3\n".toList] _
      [Record.header 1, Record.lexeme 0 "1".toList, Record.lexeme 1 ";".toList,
        Record.error 'x', Record.separator]
      (Record.header 2)
      [Record.lexeme 0 "2".toList, Record.lexeme 1 ";".toList,
          Record.separator, Record.header 3, Record.lexeme 0 "3".toList]
      (by decide) rfl).1⟩

/-- C13: on a C string `squeeze_together` deletes exactly the tabs, spaces,
newlines, vertical tabs, backspaces, form feeds, carriage returns and bells:
the result is a subsequence of the input, holds none of these eight
characters, and holds every other character as often as the input does; an
empty input gives an empty result. -/
theorem squeeze_together_deletes (l : List Char) (hz : NUL ∉ l) :
    squeeze_together l = l.filter (fun c => decide (c ∉ removed_characters)) ∧
    List.Sublist (squeeze_together l) l ∧
    (∀ c, c ∈ removed_characters → c ∉ squeeze_together l) ∧
    (∀ c, c ∉ removed_characters → (squeeze_together l).count c = l.count c) ∧
    squeeze_together [] = [] := by
  have hkeep : ∀ c, c ∉ removed_characters → c ≠ NUL →
      (c != '\t' && c != ' ' && c != '\n'
        && c != NUL && c != Char.ofNat 11 && c != Char.ofNat 8
        && c != Char.ofNat 12 && c != '\r' && c != Char.ofNat 7) = true := by
    intro c hc hn
    simp only [removed_characters, List.mem_cons, List.mem_singleton, List.not_mem_nil,
      or_false, not_or] at hc
    simp [hc, hn]
  refine ⟨?_, List.filter_sublist l, ?_, ?_, rfl⟩
  · unfold squeeze_together
    apply List.filter_congr
    intro c hc
    have hn : c ≠ NUL := fun h => hz (h ▸ hc)
    by_cases hr : c ∈ removed_characters
    · simp only [removed_characters, List.mem_cons, List.mem_singleton, List.not_mem_nil,
        or_false] at hr
      rcases hr with rfl | rfl | rfl | rfl | rfl | rfl | rfl | rfl <;> decide
    · rw [hkeep c hr hn]
      simp [hr]
  · intro c hr hm
    have hp := (List.mem_filter.mp hm).2
    simp only [removed_characters, List.mem_cons, List.mem_singleton, List.not_mem_nil,
      or_false] at hr
    rcases hr with rfl | rfl | rfl | rfl | rfl | rfl | rfl | rfl <;> exact absurd hp (by decide)
  · intro c hr
    by_cases hm : c ∈ l
    · have hn : c ≠ NUL := fun h => hz (h ▸ hm)
      exact List.count_filter (hkeep c hr hn)
    · have hm2 : c ∉ squeeze_together l := fun h => hm ((List.filter_sublist l).subset h)
      rw [List.count_eq_zero_of_not_mem hm, List.count_eq_zero_of_not_mem hm2]

theorem squeeze_together_deletes_witness :
    NUL ∉ " 1 +\t2;\n".toList ∧ squeeze_together " 1 +\t2;\n".toList = "1+2;".toList ∧
    squeeze_together " 1 +\t2;\n".toList =
      " 1 +\t2;\n".toList.filter (fun c => decide (c ∉ removed_characters)) :=
  ⟨by decide, by decide, (squeeze_together_deletes " 1 +\t2;\n".toList (by decide)).1⟩

/-- C14, as the spec states it, fails: the escape character, a control
character with code 27, passes `squeeze_together`, and so does DEL. -/
theorem squeeze_together_keeps_control_character :
    ¬ (∀ c ∈ squeeze_together [Char.ofNat 27, 'a', Char.ofNat 127],
        32 ≤ c.toNat ∧ c.toNat ≠ 127) := by
  decide

/-- C14, amended: on a C string the result of `squeeze_together` holds a
character exactly when the line holds it and it is none of tab, space,
newline, vertical tab, backspace, form feed, carriage return and bell; these
eight do not occur in the result, and every other character, the control
characters among them, occurs as often as in the line.  The result holds no
NUL. -/
theorem squeeze_together_result (l : List Char) (hz : NUL ∉ l) (c : Char) :
    (c ∈ squeeze_together l ↔ c ∈ l ∧ c ∉ removed_characters) ∧
    (squeeze_together l).count c = (if c ∈ removed_characters then 0 else l.count c) ∧
    NUL ∉ squeeze_together l := by
  have hmem : c ∈ squeeze_together l ↔ c ∈ l ∧ c ∉ removed_characters :=
    ⟨fun h => ⟨(squeeze_together_mem h).1, (squeeze_together_mem h).2.1⟩,
      fun h => squeeze_together_keeps h.1 h.2 (fun hn => hz (hn ▸ h.1))⟩
  refine ⟨hmem, ?_, NUL_not_mem_squeeze l⟩
  by_cases hr : c ∈ removed_characters
  · rw [if_pos hr]
    exact List.count_eq_zero_of_not_mem (fun h => (hmem.mp h).2 hr)
  · rw [if_neg hr]
    by_cases hm : c ∈ l
    · have hp := (List.mem_filter.mp (squeeze_together_keeps hm hr (fun hn => hz (hn ▸ hm)))).2
      exact List.count_filter hp
    · rw [List.count_eq_zero_of_not_mem hm,
        List.count_eq_zero_of_not_mem (fun h => hm (hmem.mp h).1)]

theorem squeeze_together_result_witness :
    NUL ∉ [' ', 'a', Char.ofNat 27, '\t', Char.ofNat 27, Char.ofNat 127] ∧
    squeeze_together [' ', 'a', Char.ofNat 27, '\t', Char.ofNat 27, Char.ofNat 127] =
      ['a', Char.ofNat 27, Char.ofNat 27, Char.ofNat 127] ∧
    ((Char.ofNat 27 ∈
        squeeze_together [' ', 'a', Char.ofNat 27, '\t', Char.ofNat 27, Char.ofNat 127] ↔
      Char.ofNat 27 ∈ [' ', 'a', Char.ofNat 27, '\t', Char.ofNat 27, Char.ofNat 127] ∧
        Char.ofNat 27 ∉ removed_characters) ∧
    (squeeze_together
        [' ', 'a', Char.ofNat 27, '\t', Char.ofNat 27, Char.ofNat 127]).count (Char.ofNat 27) =
      (if Char.ofNat 27 ∈ removed_characters then 0
       else [' ', 'a', Char.ofNat 27, '\t', Char.ofNat 27, Char.ofNat 127].count
         (Char.ofNat 27)) ∧
    NUL ∉ squeeze_together [' ', 'a', Char.ofNat 27, '\t', Char.ofNat 27, Char.ofNat 127]) :=
  ⟨by decide, by decide,
    squeeze_together_result [' ', 'a', Char.ofNat 27, '\t', Char.ofNat 27, Char.ofNat 127]
      (by decide) (Char.ofNat 27)⟩

/-- C15: `squeeze_together` applied to its own result changes nothing, and a C
string without any of the eight removed characters is returned as it is. -/
theorem squeeze_together_idempotent (s t : List Char)
    (ht : ∀ c ∈ t, c ∉ removed_characters) (hz : NUL ∉ t) :
    squeeze_together (squeeze_together s) = squeeze_together s ∧
    squeeze_together t = t :=
  ⟨squeeze_together_self (fun _ hc => (squeeze_together_mem hc).2.1)
      (fun h => (squeeze_together_mem h).2.2 rfl),
    squeeze_together_self ht hz⟩

theorem squeeze_together_idempotent_witness :
    (∀ c ∈ "1+2;".toList, c ∉ removed_characters) ∧ NUL ∉ "1+2;".toList ∧
    squeeze_together (squeeze_together " 1 +\t2;\n".toList) =
      squeeze_together " 1 +\t2;\n".toList ∧
    squeeze_together "1+2;".toList = "1+2;".toList :=
  ⟨by decide, by decide,
    squeeze_together_idempotent " 1 +\t2;\n".toList "1+2;".toList (by decide) (by decide)⟩

/-- C16: a line that `fgets` has read and that holds only characters that
`squeeze_together` removes is squeezed to the empty line, for which `main`
writes no record and leaves `start` and `count` as they are. -/
theorem main_line_blank (TSIZE : Nat) (input_line : List Char) (start count : Int)
    (h : ∀ c ∈ input_line, c ∈ removed_characters) :
    squeeze_together input_line = [] ∧
    main_line TSIZE input_line start count = some (start, count, []) := by
  have hs : squeeze_together input_line = [] := by
    rw [List.eq_nil_iff_forall_not_mem]
    intro c hc
    have h1 := squeeze_together_mem hc
    exact h1.2.1 (h c h1.1)
  refine ⟨hs, ?_⟩
  unfold main_line
  simp [hs]

theorem main_line_blank_witness :
    (∀ c ∈ " \t \n".toList, c ∈ removed_characters) ∧
    main_line 20 " \t \n".toList 3 2 = some (3, 2, []) ∧
    main_line 20 " \t ".toList 3 2 = some (3, 2, []) :=
  ⟨by decide, (main_line_blank 20 " \t \n".toList 3 2 (by decide)).2, by decide⟩

/-- C19: the text that `get_token` has scanned before a sentinel is put in
its place is empty, or a non-empty string of digits, or one of the twelve
symbols with or without a following `=`; it is never "NULL" or "ERROR", so the
token that `main` compares with these two strings equals one of them only when
nothing was scanned.  This holds for every size of the token buffer. -/
theorem scanned_text_shape (TSIZE : Nat) (rest : List Char) :
    (scanned_text TSIZE rest = [] ∨
      (scanned_text TSIZE rest ≠ [] ∧ ∀ c ∈ scanned_text TSIZE rest, isdigit c = true) ∨
      (∃ c, c ∈ operator_symbols ∧
        (scanned_text TSIZE rest = [c] ∨ scanned_text TSIZE rest = [c, '=']))) ∧
    scanned_text TSIZE rest ≠ "NULL".toList ∧ scanned_text TSIZE rest ≠ "ERROR".toList ∧
    (∀ line token, get_token TSIZE line token =
      (string_after_token line token).map (fun r =>
        (r,
          if scanned_text TSIZE r = [] then
            (if charAt r 0 ≠ NUL then strncpy "ERROR".toList TSIZE
             else strncpy "NULL".toList TSIZE)
          else scanned_text TSIZE r))) :=
  ⟨scanned_text_shape_aux TSIZE rest, (scanned_text_ne_sentinel TSIZE rest).1,
    (scanned_text_ne_sentinel TSIZE rest).2, get_token_scanned TSIZE⟩

/-- C20: when the text that remains starts with `;` followed by `=`,
`get_token` returns the token `;=`; `file_write_token` compares it with `;`,
finds it different, and so leaves `start` as it is, and `count` goes up by one
instead of back to 0: the statement goes on. -/
theorem semicolon_assign (TSIZE : Nat) (hT : 6 ≤ TSIZE) (st : Scan) (tl : List Char)
    (hrest : string_after_token st.line st.token = some (';' :: '=' :: tl)) :
    get_token TSIZE st.line st.token = some (';' :: '=' :: tl, ";=".toList) ∧
    file_write_token st.start st.count ";=".toList =
      (st.start, st.count,
        (if st.count = 0 then
          (if st.start > 1 then [Record.separator] else []) ++ [Record.header st.start]
        else []) ++ [Record.lexeme st.count ";=".toList]) ∧
    (∃ st1, loop_body TSIZE st = some st1 ∧ st1.start = st.start ∧
      st1.count = st.count + 1 ∧ st1.token = ";=".toList) ∧
    main_line TSIZE "1;=2;3".toList 1 0 = some (2, 1,
      [Record.header 1, Record.lexeme 0 "1".toList, Record.lexeme 1 ";=".toList,
       Record.lexeme 2 "2".toList, Record.lexeme 3 ";".toList, Record.separator,
       Record.header 2, Record.lexeme 0 "3".toList]) := by
  have hc : classify TSIZE (';' :: '=' :: tl) = ";=".toList := by
    rw [classify_operator TSIZE (by decide)]
    rfl
  refine ⟨?_, ?_, ?_, ?_⟩
  · rw [get_token_classify hT hrest, hc]
  · rfl
  · rw [loop_body_of_rest hT hrest, hc]
    exact ⟨_, rfl, rfl, rfl, rfl⟩
  · rw [main_line_fit hT _ _ _ (by decide)]
    decide

theorem semicolon_assign_witness :
    string_after_token "1;=2".toList "1".toList = some (';' :: '=' :: "2".toList) ∧
    get_token 20 "1;=2".toList "1".toList = some (";=2".toList, ";=".toList) :=
  ⟨by decide,
    (semicolon_assign 20 (by decide) ⟨"1;=2".toList, "1".toList, 1, 1, []⟩ "2".toList
      (by decide)).1⟩

end Tokenizer
